import Mathlib

/-!
# Verification of the golap streaming query engine

A shallow embedding, in Lean 4, of the core of the `golap` repository: the
typed value/row data model (`types` package), the zone-map statistics and
pruning logic (`metadata` package), the filter comparison evaluation
(`operators/filter.go`), the CSV scan parsing (`operators/scan.go`), the
scalar and grouped aggregation (`operators/aggregate.go`), and the external
merge sort (`operators/sort.go`), together with proofs of the behavioural
properties stated in the specification.

Modelling conventions:
* Go `int64` is embedded as `ℤ`. The claims under study only compare, never
  overflow, int64 values; where the Go standard library range-checks
  (`strconv.ParseInt`), the model range-checks too.
* Go `float64` is embedded as `ℚ`. Every float64 literal appearing in the
  claims (such as `1.5`) is an exactly representable dyadic rational, and on
  such values Go's float64 comparison and arithmetic agree with exact
  rational arithmetic.
* Go strings are embedded as Lean `String`. Go compares strings bytewise;
  UTF-8 is order-preserving on unicode scalar values, so character-wise
  lexicographic comparison of the decoded strings is the same order.
* I/O failures (file open/read/write errors) are outside the model: the
  claims under study are about the value-level behaviour of the operators,
  and every I/O error in the source is propagated verbatim, never absorbed
  into values.
-/

namespace Golap

/-- `types.DataType`: the closed set of column types `{Int, Float, String}`
(`types/types.go`). Constructor names are lower-cased to avoid clashing with
the Lean builtin types. -/
inductive DataType where
  | int
  | float
  | string
deriving DecidableEq, Repr

/-- A dynamically tagged row value. The source stores `interface{}` values
that are always one of `int64`, `float64`, `string`, or `nil`; this sum type
is that closed set. -/
inductive Value where
  | vInt (z : ℤ)
  | vFloat (q : ℚ)
  | vStr (s : String)
  | vNull
deriving DecidableEq, Repr

/-- `types.Row`: an ordered sequence of dynamically tagged values. -/
structure Row where
  values : List Value
deriving DecidableEq, Repr

/-- `types.Comparator`: the six comparison operators of a WHERE clause. -/
inductive Comparator where
  | eq
  | lt
  | gt
  | lte
  | gte
  | neq
deriving DecidableEq, Repr

/-- `types.AggregateType`: the five aggregation functions. -/
inductive AggregateType where
  | count
  | sum
  | min
  | max
  | avg
deriving DecidableEq, Repr

/-! ## Zone maps (`metadata/zonemap.go`) -/

/-- `metadata.ZoneMap`: per-file min/max statistics for integer columns.
The Go `map[string]int64` fields are embedded as association lists looked up
with `List.lookup`; `GenerateZoneMap` never inserts a key twice (header
names are assumed unique), so the association-list representation is a
faithful finite map. -/
structure ZoneMap where
  RowCount : ℤ
  MinValues : List (String × ℤ)
  MaxValues : List (String × ℤ)
deriving DecidableEq, Repr

/-- `ZoneMap.CanPrune` (`metadata/zonemap.go`): decides from the stored
bounds alone whether no row of the file can satisfy `columnName comp value`.
Direct transcription of the `switch` in the source. -/
def ZoneMap.CanPrune (zm : ZoneMap) (columnName : String) (comp : Comparator)
    (value : ℤ) : Bool :=
  match zm.MinValues.lookup columnName, zm.MaxValues.lookup columnName with
  | some mn, some mx =>
    match comp with
    | .eq => value < mn || value > mx
    | .lt => mn ≥ value
    | .lte => mn > value
    | .gt => mx ≤ value
    | .gte => mx < value
    | .neq => mn = mx && mn = value
  | _, _ =>
    -- Column not tracked in zone map, can't prune
    false

/-! ## Filter comparison evaluation (`operators/filter.go`) -/

/-- Go's conversion `int64(f)` of a `float64` to an `int64`: truncation
toward zero. On a reduced rational, truncating division of the numerator by
the denominator is exactly that truncation. -/
def goTruncToInt64 (q : ℚ) : ℤ :=
  q.num.tdiv q.den

/-- `operators.toInt64` (`filter.go`): convert a comparison literal to
`int64` when the row value is an integer. A `float64` literal is truncated
by Go's conversion; anything else fails. (The Go `case int:` arm also
converts, but the engine only ever stores `int64`, `float64` or `string`
literals, which this `Value` type is.) -/
def toInt64 (v : Value) : Option ℤ :=
  match v with
  | .vInt z => some z
  | .vFloat q => some (goTruncToInt64 q)
  | _ => none

/-- `operators.toFloat64` (`filter.go`): convert a comparison literal to
`float64` when the row value is a float; an integer literal is promoted. -/
def toFloat64 (v : Value) : Option ℚ :=
  match v with
  | .vFloat q => some q
  | .vInt z => some (z : ℚ)
  | _ => none

/-- `operators.compareInt64` (`filter.go`). -/
def compareInt64 (left : ℤ) (comp : Comparator) (right : ℤ) : Bool :=
  match comp with
  | .eq => left = right
  | .lt => left < right
  | .gt => left > right
  | .lte => left ≤ right
  | .gte => left ≥ right
  | .neq => left ≠ right

/-- `operators.compareFloat64` (`filter.go`). -/
def compareFloat64 (left : ℚ) (comp : Comparator) (right : ℚ) : Bool :=
  match comp with
  | .eq => left = right
  | .lt => left < right
  | .gt => left > right
  | .lte => left ≤ right
  | .gte => left ≥ right
  | .neq => left ≠ right

/-- Character-list lexicographic comparison, the order Go uses on strings
(Go compares bytewise; UTF-8 is order-preserving, so this is the same
order). Returns `-1`, `0`, or `1` like the sign of Go's comparison. -/
def cmpChars : List Char → List Char → ℤ
  | [], [] => 0
  | [], _ :: _ => -1
  | _ :: _, [] => 1
  | a :: as, b :: bs =>
    if a < b then -1 else if b < a then 1 else cmpChars as bs

/-- Go `<` on strings as a Bool. -/
def strLtb (a b : String) : Bool :=
  cmpChars a.data b.data < 0

/-- `operators.compareString` (`filter.go`). -/
def compareString (left : String) (comp : Comparator) (right : String) : Bool :=
  match comp with
  | .eq => left = right
  | .lt => strLtb left right
  | .gt => strLtb right left
  | .lte => left = right || strLtb left right
  | .gte => left = right || strLtb right left
  | .neq => left ≠ right

/-- Go's `fmt.Sprintf("%v", x)` on the dynamic values the engine stores.
For floats the model prints `num/den`; Go prints a shortest decimal form.
Both renderings are injective on float values, and no claim under study
compares the text rendering of a float, so the difference is immaterial. -/
def govFmt (v : Value) : String :=
  match v with
  | .vInt z => toString z
  | .vFloat q => toString q.num ++ "/" ++ toString q.den
  | .vStr s => s
  | .vNull => "<nil>"

/-- `operators.compare` (`filter.go`): type-aware comparison of a row value
against a comparison literal, dispatching on the row value's dynamic type
exactly as the source's chain of type switches does. A `nil` row value
matches no arm and yields `false`. -/
def compare (left : Value) (comp : Comparator) (right : Value) : Bool :=
  match left with
  | .vInt leftInt =>
    match toInt64 right with
    | some rightInt => compareInt64 leftInt comp rightInt
    | none => false
  | .vFloat leftFloat =>
    match toFloat64 right with
    | some rightFloat => compareFloat64 leftFloat comp rightFloat
    | none => false
  | .vStr leftStr =>
    let rightStr := match right with
      | .vStr s => s
      | other => govFmt other
    compareString leftStr comp rightStr
  | .vNull => false

end Golap

namespace Golap

/-! ## Claim C2: zone-map pruning conditions -/

/-- **C2** (confirmed). For every `ZoneMap`, `CanPrune(column, comparator,
literal)` returns `true` exactly when the column is tracked (present in both
`MinValues` and `MaxValues`) and the per-comparator condition holds: for `=`
literal < min or literal > max; for `<` min ≥ literal; for `≤` min >
literal; for `>` max ≤ literal; for `≥` max < literal; for `≠`
min = max = literal. For an untracked column it always returns `false`. -/
theorem CanPrune_iff_tracked_and_bounds (zm : ZoneMap) (col : String)
    (comp : Comparator) (v : ℤ) :
    zm.CanPrune col comp v = true ↔
      ∃ mn mx, zm.MinValues.lookup col = some mn ∧
        zm.MaxValues.lookup col = some mx ∧
        (match comp with
          | .eq => v < mn ∨ v > mx
          | .lt => mn ≥ v
          | .lte => mn > v
          | .gt => mx ≤ v
          | .gte => mx < v
          | .neq => mn = mx ∧ mn = v) := by
  unfold ZoneMap.CanPrune
  rcases hmn : zm.MinValues.lookup col with _ | mn <;>
    rcases hmx : zm.MaxValues.lookup col with _ | mx <;>
      cases comp <;> simp [hmn, hmx]

/-! ## Claim C5: integer row value vs. float literal -/

/-- **C5** (the claim as stated is false). The claim says an integer row
value compared against a float literal is promoted to float and compared
exactly, so that `1 = 1.5` evaluates to `false`. The code instead truncates
the float literal to an integer: `compare(1, =, 1.5)` returns `true`, while
the promoted float comparison `1.0 = 1.5` the claim prescribes is `false`. -/
theorem compare_int_float_not_promoted :
    compare (.vInt 1) .eq (.vFloat (mkRat 3 2)) = true ∧
      compareFloat64 ((1 : ℤ) : ℚ) .eq (mkRat 3 2) = false := by
  constructor <;> decide

/-- **C5** (amended). Whenever the row value is an integer and the
comparison literal is a float, the literal is converted to an integer by
Go's float-to-int conversion (truncation toward zero) and the comparison is
decided by exact integer comparison of the two integers, for every
comparator; in particular row value `1` compared `=` against literal `1.5`
is `true`, and row value `2` compared `>` against `1.5` is `true`. -/
theorem compare_int_float_truncates :
    (∀ (z : ℤ) (comp : Comparator) (q : ℚ),
      compare (.vInt z) comp (.vFloat q) =
        compareInt64 z comp (goTruncToInt64 q)) ∧
      compare (.vInt 1) .eq (.vFloat (mkRat 3 2)) = true ∧
      compare (.vInt 2) .gt (.vFloat (mkRat 3 2)) = true := by
  refine ⟨fun z comp q => rfl, by decide, by decide⟩

end Golap

namespace Golap

/-! ## Models of `strconv.ParseInt` / `strconv.ParseFloat` -/

/-- The numeric value of a decimal digit character, if it is one. -/
def digitVal? (c : Char) : Option ℕ :=
  if '0' ≤ c ∧ c ≤ '9' then some (c.toNat - '0'.toNat) else none

/-- Accumulate a run of decimal digits; fails on the first non-digit. -/
def parseDigitsAux : List Char → ℕ → Option ℕ
  | [], acc => some acc
  | c :: cs, acc =>
    match digitVal? c with
    | some d => parseDigitsAux cs (acc * 10 + d)
    | none => none

/-- A non-empty all-digit run read as a natural number. -/
def parseDigits? : List Char → Option ℕ
  | [] => none
  | cs => parseDigitsAux cs 0

/-- Split an optional single leading sign. Returns (negative?, remainder). -/
def splitSign : List Char → Bool × List Char
  | '+' :: rest => (false, rest)
  | '-' :: rest => (true, rest)
  | cs => (false, cs)

/-- Model of Go `strconv.ParseInt(s, 10, 64)`: optional sign, then a
non-empty run of decimal digits, with the result required to fit in an
`int64`; any syntax or range error makes the call fail (the callers in this
repository treat every non-nil error alike). -/
def goParseInt? (s : String) : Option ℤ :=
  let (neg, body) := splitSign s.data
  match parseDigits? body with
  | none => none
  | some n =>
    let v : ℤ := if neg then -(n : ℤ) else (n : ℤ)
    if -(2 ^ 63) ≤ v ∧ v ≤ 2 ^ 63 - 1 then some v else none

/-- `math.MaxFloat64`, exactly: `(2^53 − 1) · 2^971 = 2^1024 − 2^971`. -/
def maxFloat64 : ℚ := 2 ^ 1024 - 2 ^ 971

/-- Digit accumulator for the decimal-float model: walks the character
list, allowing a single `'.'`, and returns (all digits read as one natural
number, number of fractional digits, total digit count). -/
def parseDecAux : List Char → Bool → ℕ → ℕ → ℕ → Option (ℕ × ℕ × ℕ)
  | [], _, acc, f, n => if n = 0 then none else some (acc, f, n)
  | '.' :: cs, seenDot, acc, f, n =>
    if seenDot then none else parseDecAux cs true acc f n
  | c :: cs, seenDot, acc, f, n =>
    match digitVal? c with
    | some d =>
      parseDecAux cs seenDot (acc * 10 + d) (if seenDot then f + 1 else f) (n + 1)
    | none => none

/-- Model of Go `strconv.ParseFloat(s, 64)` on plain decimal notation:
optional sign, digits with at most one decimal point, at least one digit,
magnitude within float64 range. The Go function also accepts exponent,
hexadecimal and inf/nan notations and rounds the exact decimal value to the
nearest binary64; the strings this engine feeds it (its own
`strconv.FormatFloat` output and short CSV literals) are plain decimals, and
every theorem below conditions on this function's success or failure rather
than relying on the unsupported notations. -/
def goParseFloat? (s : String) : Option ℚ :=
  let (neg, body) := splitSign s.data
  match parseDecAux body false 0 0 0 with
  | none => none
  | some (acc, f, _) =>
    let mag : ℚ := (acc : ℚ) / 10 ^ f
    let v : ℚ := if neg then -mag else mag
    if mag ≤ maxFloat64 then some v else none

/-! ## CSV scan (`operators/scan.go`) -/

/-- `operators.inferType` (`scan.go`): type inference from one cell of the
first data row. Priority Int → Float → String; an empty cell infers
String. -/
def inferType (val : String) : DataType :=
  if val = "" then .string
  else if (goParseInt? val).isSome then .int
  else if (goParseFloat? val).isSome then .float
  else .string

/-- `operators.parseValue` (`scan.go`): convert one CSV cell according to
the declared column type; a failed numeric parse falls back to the typed
zero value. -/
def parseValue (val : String) (dt : DataType) : Value :=
  match dt with
  | .int =>
    match goParseInt? val with
    | some v => .vInt v
    | none => .vInt 0 -- Parse failure, return zero value
  | .float =>
    match goParseFloat? val with
    | some v => .vFloat v
    | none => .vFloat 0 -- Parse failure, return zero value
  | .string => .vStr val

/-- The column types fixed at `NewCSVScan` time: inferred from the first
data row when there is one, all-String otherwise. The Go code allocates
`make([]DataType, len(header))` (zero value `types.Int`) and then writes
one entry per first-row cell, so a first row shorter than the header would
leave `Int` entries; `encoding/csv` enforces equal record lengths, but the
model keeps the zero-value default faithfully. -/
def scanTypes (header : List String) (firstRow? : Option (List String)) :
    List DataType :=
  match firstRow? with
  | some firstRow =>
    (List.range header.length).map fun i =>
      match firstRow.get? i with
      | some v => inferType v
      | none => .int
  | none => header.map fun _ => .string

/-- The value list of one scanned row: each cell parsed by its column type,
cells beyond the schema kept as raw strings (`scan.go`, `Next`). -/
def parseRecordVals : List String → List DataType → List Value
  | [], _ => []
  | v :: vs, [] => .vStr v :: parseRecordVals vs []
  | v :: vs, t :: ts => parseValue v t :: parseRecordVals vs ts

/-- `CSVScan.Next`'s per-record work: a record parsed into a `Row`. -/
def CSVScan.parseRecord (types : List DataType) (record : List String) : Row :=
  ⟨parseRecordVals record types⟩

/-- The whole output stream of a `CSVScan` over the data records of a CSV
file (header excluded). The first record is buffered at construction for
type inference and returned, parsed by the same `parseValue` path, on the
first `Next()`; every following `Next()` parses the next record. CSV read
failures are I/O errors outside the model; on the value level every record
yields exactly one row and no error. -/
def scanOutput (header : List String) (records : List (List String)) :
    List Row :=
  records.map (CSVScan.parseRecord (scanTypes header records.head?))

end Golap

namespace Golap

/-! ## Claim C7: scan parses by the fixed schema and zero-fills failures -/

/-- The parsed row lines up cell by cell with the record and the fixed
column types. -/
theorem parseRecordVals_get? :
    ∀ (record : List String) (types : List DataType) (i : ℕ) (v : String)
      (t : DataType), record.get? i = some v → types.get? i = some t →
      (parseRecordVals record types).get? i = some (parseValue v t) := by
  intro record
  induction record with
  | nil => intro types i v t hv ht; simp at hv
  | cons v0 vs ih =>
    intro types i v t hv ht
    cases types with
    | nil => simp at ht
    | cons t0 ts =>
      cases i with
      | zero =>
        simp at hv ht
        subst hv; subst ht
        rfl
      | succ j =>
        simp only [List.get?_cons_succ] at hv ht
        simpa [parseRecordVals] using ih ts j v t hv ht

/-- **C7** (confirmed). For every data record after the first, the scan
parses each cell by the column type fixed from the first data row
(`scanTypes`), still emits exactly one output row for the record, and a
cell of an Integer or Float column that fails to parse is replaced by the
typed zero (`vInt 0` / `vFloat 0`) rather than producing an error: the
output stream of the scan is total, one row per record, with no error
outcome. -/
theorem scan_fixed_types_zero_fill (header fr : List String)
    (rest : List (List String)) (k : ℕ) (r : List String)
    (hk : rest.get? k = some r) :
    (scanOutput header (fr :: rest)).get? (k + 1) =
        some (CSVScan.parseRecord (scanTypes header (some fr)) r) ∧
      (scanOutput header (fr :: rest)).length = rest.length + 1 ∧
      (∀ (i : ℕ) (v : String) (t : DataType), r.get? i = some v →
        (scanTypes header (some fr)).get? i = some t →
        (CSVScan.parseRecord (scanTypes header (some fr)) r).values.get? i =
          some (parseValue v t)) ∧
      (∀ v : String, goParseInt? v = none → parseValue v .int = .vInt 0) ∧
      (∀ v : String, goParseFloat? v = none → parseValue v .float = .vFloat 0) := by
  refine ⟨?_, ?_, ?_, ?_, ?_⟩
  · simp only [scanOutput, List.get?_map, List.head?_cons, List.get?_cons_succ,
      Option.map_eq_some']
    exact ⟨r, hk, rfl⟩
  · simp [scanOutput]
  · intro i v t hv ht
    exact parseRecordVals_get? r (scanTypes header (some fr)) i v t hv ht
  · intro v h; simp [parseValue, h]
  · intro v h; simp [parseValue, h]

/-- Witness for C7 at a concrete CSV: header `a`, first row `1` (fixing the
column type to Integer), second row `x` (which fails the integer parse and
is zero-filled). -/
theorem scan_fixed_types_zero_fill_witness :
    ([["x"]] : List (List String)).get? 0 = some ["x"] ∧
      (scanOutput ["a"] [["1"], ["x"]]).get? 1 =
        some (CSVScan.parseRecord (scanTypes ["a"] (some ["1"])) ["x"]) ∧
      scanOutput ["a"] [["1"], ["x"]] = [⟨[.vInt 1]⟩, ⟨[.vInt 0]⟩] :=
  ⟨by decide,
    (scan_fixed_types_zero_fill ["a"] ["1"] [["x"]] 0 ["x"] (by decide)).1,
    by decide⟩

end Golap

namespace Golap

/-! ## Scalar aggregation (`operators/aggregate.go`) -/

/-- `operators.AggregateExpr`: one aggregation expression. The output alias
only names the result column and is not modelled. -/
structure AggregateExpr where
  type : AggregateType
  ColumnIndex : ℤ -- Column to aggregate (-1 for COUNT(*))
deriving DecidableEq, Repr

/-- `operators.aggregateState`: the running state of one aggregate. -/
structure aggregateState where
  count : ℤ
  sum : ℚ
  min : ℚ
  max : ℚ
  hasData : Bool
deriving DecidableEq, Repr

/-- The state each aggregate starts from (`ScalarAggregateOp.Next`):
Go zero values for `count`, `sum` and `hasData`, and
`min = math.MaxFloat64`, `max = -math.MaxFloat64`. -/
def initAggState : aggregateState :=
  { count := 0, sum := 0, min := maxFloat64, max := -maxFloat64,
    hasData := false }

/-- `operators.toNumericValue` (`aggregate.go`): convert a value to float64
for aggregation; strings and nil do not convert. -/
def toNumericValue (v : Value) : Option ℚ :=
  match v with
  | .vInt z => some (z : ℚ)
  | .vFloat q => some q
  | _ => none

/-- `ScalarAggregateOp.updateState` (`aggregate.go`): the count increments
on every upstream row before anything else; `COUNT(*)` reads no column; a
missing or non-numeric column value leaves the rest of the state alone. -/
def updateState (state : aggregateState) (agg : AggregateExpr) (row : Row) :
    aggregateState :=
  let state := { state with count := state.count + 1 }
  -- For COUNT(*), we don't need the column value
  if agg.type = .count ∧ agg.ColumnIndex < 0 then
    { state with hasData := true }
  else if agg.ColumnIndex < 0 ∨ (row.values.length : ℤ) ≤ agg.ColumnIndex then
    state
  else
    match row.values.get? agg.ColumnIndex.toNat with
    | none => state -- unreachable: the bounds were just checked
    | some val =>
      match toNumericValue val with
      | none => state
      | some numVal =>
        let state := { state with hasData := true, sum := state.sum + numVal }
        let state :=
          if numVal < state.min then { state with min := numVal } else state
        if numVal > state.max then { state with max := numVal } else state

/-- `ScalarAggregateOp.finalizeState` (`aggregate.go`). -/
def finalizeState (state : aggregateState) (agg : AggregateExpr) : Value :=
  match agg.type with
  | .count => .vInt state.count
  | .sum => if state.hasData = false then .vFloat 0 else .vFloat state.sum
  | .min => if state.hasData = false then .vNull else .vFloat state.min
  | .max => if state.hasData = false then .vNull else .vFloat state.max
  | .avg =>
    if state.count = 0 then .vNull
    else .vFloat (state.sum / (state.count : ℚ))

/-- The per-aggregate states after streaming through all upstream rows
(`ScalarAggregateOp.Next`'s loop: for every row, every aggregate's state is
updated). -/
def scalarAggStates (aggs : List AggregateExpr) (rows : List Row) :
    List aggregateState :=
  rows.foldl
    (fun states row => (aggs.zip states).map fun p => updateState p.2 p.1 row)
    (aggs.map fun _ => initAggState)

/-- The single result row a scalar aggregate emits. -/
def ScalarAggregateOp.resultRow (aggs : List AggregateExpr) (rows : List Row) :
    Row :=
  ⟨(aggs.zip (scalarAggStates aggs rows)).map fun p => finalizeState p.2 p.1⟩

/-- `ScalarAggregateOp.Next` as a function of the `computed` flag: the
first call consumes the whole upstream and returns the one result row; every
later call returns end-of-stream. -/
def ScalarAggregateOp.Next (aggs : List AggregateExpr) (rows : List Row)
    (computed : Bool) : Option Row × Bool :=
  if computed then (none, true)
  else (some (ScalarAggregateOp.resultRow aggs rows), true)

/-- Mapping a function pairwise over `l.zip (l.map f)` is a single map. -/
theorem zip_map_const_map {α β γ : Type} (f : α → β) (g : α × β → γ) :
    ∀ l : List α, (l.zip (l.map f)).map g = l.map fun a => g (a, f a) := by
  intro l
  induction l with
  | nil => rfl
  | cons a l ih => simp [ih]

/-- The row-major update loop of the source equals a per-aggregate fold. -/
theorem scalarAggStates_eq_map (aggs : List AggregateExpr) (rows : List Row) :
    scalarAggStates aggs rows =
      aggs.map fun agg =>
        rows.foldl (fun st row => updateState st agg row) initAggState := by
  unfold scalarAggStates
  suffices h : ∀ (rows : List Row) (h0 : AggregateExpr → aggregateState),
      rows.foldl
        (fun states row => (aggs.zip states).map fun p => updateState p.2 p.1 row)
        (aggs.map h0) =
      aggs.map fun agg =>
        rows.foldl (fun st row => updateState st agg row) (h0 agg) by
    exact h rows fun _ => initAggState
  intro rows
  induction rows with
  | nil => intro h0; rfl
  | cons row rows ih =>
    intro h0
    simp only [List.foldl_cons]
    rw [zip_map_const_map h0 (fun p => updateState p.2 p.1 row)]
    exact ih fun a => updateState (h0 a) a row

end Golap

namespace Golap

/-! ## Claim C9: scalar aggregate on empty input -/

/-- **C9** (confirmed). When the upstream of a scalar aggregate yields zero
rows, the first `Next()` returns exactly one row whose value is integer `0`
for every Count, `0.0` for every Sum, and null for every Min, Max and Avg;
every later `Next()` returns end-of-stream. -/
theorem scalarAgg_empty_input (aggs : List AggregateExpr) :
    ScalarAggregateOp.Next aggs [] false =
      (some ⟨aggs.map fun agg =>
        match agg.type with
        | .count => .vInt 0
        | .sum => .vFloat 0
        | _ => .vNull⟩, true) ∧
      ScalarAggregateOp.Next aggs [] true = (none, true) := by
  constructor
  · show (some (ScalarAggregateOp.resultRow aggs []), true) = _
    unfold ScalarAggregateOp.resultRow scalarAggStates
    simp only [List.foldl_nil]
    rw [zip_map_const_map (fun _ => initAggState) (fun p => finalizeState p.2 p.1)]
    have : (aggs.map fun a => finalizeState initAggState a) =
        aggs.map fun agg =>
          match agg.type with
          | .count => Value.vInt 0
          | .sum => Value.vFloat 0
          | _ => Value.vNull := by
      apply List.map_congr_left
      intro a _
      rcases a with ⟨t, ci⟩
      cases t <;> rfl
    rw [this]
  · rfl

/-! ## Claim C10: non-numeric columns still count, so Avg is 0.0, not null -/

/-- One update step on a row whose aggregated column does not convert to a
number (or is missing) only increments the count. -/
theorem updateState_nonNumeric (st : aggregateState) (agg : AggregateExpr)
    (row : Row) (hci : 0 ≤ agg.ColumnIndex)
    (h : ∀ v, row.values.get? agg.ColumnIndex.toNat = some v →
      toNumericValue v = none) :
    updateState st agg row = { st with count := st.count + 1 } := by
  unfold updateState
  rw [if_neg (by rintro ⟨-, hlt⟩; omega)]
  by_cases hb : agg.ColumnIndex < 0 ∨ (row.values.length : ℤ) ≤ agg.ColumnIndex
  · rw [if_pos hb]
  · rw [if_neg hb]
    cases hv : row.values.get? agg.ColumnIndex.toNat with
    | none => rfl
    | some v => simp only [h v hv]

/-- Folding the update over rows that never contribute a numeric value adds
the row count to `count` and changes nothing else. -/
theorem foldl_updateState_nonNumeric (agg : AggregateExpr)
    (hci : 0 ≤ agg.ColumnIndex) :
    ∀ (rows : List Row),
      (∀ r ∈ rows, ∀ v, r.values.get? agg.ColumnIndex.toNat = some v →
        toNumericValue v = none) →
      ∀ st : aggregateState,
        rows.foldl (fun st row => updateState st agg row) st =
          { st with count := st.count + rows.length } := by
  intro rows
  induction rows with
  | nil => intro _ st; simp
  | cons r rows ih =>
    intro hnn st
    simp only [List.foldl_cons]
    rw [updateState_nonNumeric st agg r hci (hnn r (List.mem_cons_self r rows)),
      ih (fun x hx => hnn x (List.mem_cons_of_mem r hx))]
    simp only [List.length_cons]
    congr 1
    push_cast
    ring

/-- **C10** (confirmed). The per-aggregate count increments on every
upstream row whether or not the aggregated column's value is numeric, so
for a non-empty input in which no value of the aggregated column converts
to a number, Avg returns `0.0` (sum 0 over a positive count) rather than
null, while Min and Max over the same input return null. -/
theorem scalarAgg_nonNumeric_avg_zero (ci : ℤ) (rows : List Row)
    (hne : rows ≠ []) (hci : 0 ≤ ci)
    (hnn : ∀ r ∈ rows, ∀ v, r.values.get? ci.toNat = some v →
      toNumericValue v = none) :
    ScalarAggregateOp.Next [⟨.avg, ci⟩, ⟨.min, ci⟩, ⟨.max, ci⟩] rows false =
        (some ⟨[.vFloat 0, .vNull, .vNull]⟩, true) ∧
      ∀ st ∈ scalarAggStates [⟨.avg, ci⟩, ⟨.min, ci⟩, ⟨.max, ci⟩] rows,
        st.count = rows.length := by
  have hfold : ∀ agg : AggregateExpr, agg.ColumnIndex = ci →
      rows.foldl (fun st row => updateState st agg row) initAggState =
        { initAggState with count := (rows.length : ℤ) } := by
    intro agg hagg
    rw [foldl_updateState_nonNumeric agg (by omega) rows
      (by simpa [hagg] using hnn)]
    simp [initAggState]
  have hstates : scalarAggStates [⟨.avg, ci⟩, ⟨.min, ci⟩, ⟨.max, ci⟩] rows =
      [{ initAggState with count := (rows.length : ℤ) },
        { initAggState with count := (rows.length : ℤ) },
        { initAggState with count := (rows.length : ℤ) }] := by
    rw [scalarAggStates_eq_map]
    simp only [List.map_cons, List.map_nil]
    rw [hfold ⟨.avg, ci⟩ rfl, hfold ⟨.min, ci⟩ rfl, hfold ⟨.max, ci⟩ rfl]
  have hn : (rows.length : ℤ) ≠ 0 := by
    have := List.length_pos.2 hne
    omega
  constructor
  · show (some (ScalarAggregateOp.resultRow _ rows), true) = _
    unfold ScalarAggregateOp.resultRow
    rw [hstates]
    simp only [List.zip_cons_cons, List.zip_nil_right, List.map_cons,
      List.map_nil]
    simp [finalizeState, initAggState, hn]
  · intro st hst
    rw [hstates] at hst
    simp only [List.mem_cons, List.not_mem_nil, or_false] at hst
    rcases hst with h | h | h <;> simp [h]

/-- Witness for C10: one row whose only column holds the string `"x"`. -/
theorem scalarAgg_nonNumeric_avg_zero_witness :
    ([⟨[.vStr "x"]⟩] : List Row) ≠ [] ∧
      ScalarAggregateOp.Next [⟨.avg, 0⟩, ⟨.min, 0⟩, ⟨.max, 0⟩]
          [⟨[.vStr "x"]⟩] false =
        (some ⟨[.vFloat 0, .vNull, .vNull]⟩, true) :=
  ⟨by decide,
    (scalarAgg_nonNumeric_avg_zero 0 [⟨[.vStr "x"]⟩] (by decide) (by decide)
      (by decide)).1⟩

end Golap

namespace Golap

/-! ## Grouped aggregation keys (`operators/aggregate.go`, `buildGroupKey`) -/

/-- The text contributed to the group key by one group-by index: the `%v`
rendering of the value when the index is in range, nothing otherwise
(`buildGroupKey`'s loop body). -/
def groupKeyPiece (row : Row) (idx : ℤ) : String :=
  if 0 ≤ idx ∧ idx < (row.values.length : ℤ) then
    match row.values.get? idx.toNat with
    | some v => govFmt v
    | none => ""
  else ""

/-- `HashAggregateOp.buildGroupKey` (`aggregate.go`): the composite group
key, built by concatenating the `%v` renderings of the group-by column
values with a `"\x00"` separator between consecutive positions. -/
def buildGroupKey (groupByIndices : List ℤ) (row : Row) : String :=
  match groupByIndices with
  | [] => ""
  | idx :: rest =>
    rest.foldl (fun key i => key ++ "\x00" ++ groupKeyPiece row i)
      (groupKeyPiece row idx)

/-- The sequence of group-by column values of a row, as `computeGroups`
materializes it into `keyValues` (out-of-range indices stay nil). -/
def groupByValues (groupByIndices : List ℤ) (row : Row) : List Value :=
  groupByIndices.map fun idx =>
    if 0 ≤ idx ∧ idx < (row.values.length : ℤ) then
      match row.values.get? idx.toNat with
      | some v => v
      | none => .vNull
    else .vNull

/-- The tail of a separator join: a `'\x00'` before each remaining piece. -/
def joinTail : List (List Char) → List Char
  | [] => []
  | p :: ps => '\x00' :: (p ++ joinTail ps)

/-- Character-level separator join of a list of pieces. -/
def joinSep : List (List Char) → List Char
  | [] => []
  | p :: ps => p ++ joinTail ps

/-- Equal strings have equal character data, and conversely. -/
theorem str_data_inj : ∀ {a b : String}, a.data = b.data → a = b := by
  intro ⟨a⟩ ⟨b⟩ h
  cases h
  rfl

/-- A word of non-separator characters followed by a separator is recovered
uniquely from the joined text. -/
theorem nulSplit_unique :
    ∀ (a b t1 t2 : List Char), '\x00' ∉ a → '\x00' ∉ b →
      a ++ '\x00' :: t1 = b ++ '\x00' :: t2 → a = b ∧ t1 = t2 := by
  intro a
  induction a with
  | nil =>
    intro b t1 t2 _ hb h
    cases b with
    | nil => simpa using h
    | cons c b' =>
      simp only [List.nil_append, List.cons_append, List.cons.injEq] at h
      exact absurd (by rw [h.1]; exact List.mem_cons_self c b') hb
  | cons c a' ih =>
    intro b t1 t2 ha hb h
    cases b with
    | nil =>
      simp only [List.cons_append, List.nil_append, List.cons.injEq] at h
      exact absurd (by rw [h.1]; exact List.mem_cons_self _ _) ha
    | cons d b' =>
      simp only [List.cons_append, List.cons.injEq] at h
      obtain ⟨rfl, h'⟩ := h
      have := ih b' t1 t2 (fun hx => ha (List.mem_cons_of_mem _ hx))
        (fun hx => hb (List.mem_cons_of_mem _ hx)) h'
      exact ⟨by rw [this.1], this.2⟩

/-- On same-length lists of separator-free pieces, the separator join is
injective. -/
theorem joinSep_inj :
    ∀ (xs ys : List (List Char)), xs.length = ys.length →
      (∀ p ∈ xs, '\x00' ∉ p) → (∀ p ∈ ys, '\x00' ∉ p) →
      joinSep xs = joinSep ys → xs = ys := by
  intro xs
  induction xs with
  | nil =>
    intro ys hlen _ _ _
    cases ys with
    | nil => rfl
    | cons q qs => simp at hlen
  | cons p ps ih =>
    intro ys hlen hx hy h
    cases ys with
    | nil => simp at hlen
    | cons q qs =>
      cases ps with
      | nil =>
        cases qs with
        | nil => simpa [joinSep, joinTail] using h
        | cons q2 qs' => simp at hlen
      | cons p2 ps' =>
        cases qs with
        | nil => simp at hlen
        | cons q2 qs' =>
          simp only [joinSep, joinTail] at h
          have hsplit := nulSplit_unique p q _ _
            (hx p (List.mem_cons_self p _)) (hy q (List.mem_cons_self q _)) h
          obtain ⟨rfl, htail⟩ := hsplit
          have : (p2 :: ps') = (q2 :: qs') := by
            apply ih (q2 :: qs') (by simpa using hlen)
              (fun r hr => hx r (List.mem_cons_of_mem _ hr))
              (fun r hr => hy r (List.mem_cons_of_mem _ hr))
            simpa [joinSep, joinTail] using htail
          rw [this]

/-- The key-building fold, read at the level of character lists. -/
theorem buildGroupKey_foldl_data (row : Row) :
    ∀ (rest : List ℤ) (acc : String),
      (rest.foldl (fun key i => key ++ "\x00" ++ groupKeyPiece row i) acc).data
        = acc.data ++ joinTail (rest.map fun i => (groupKeyPiece row i).data) := by
  intro rest
  induction rest with
  | nil => intro acc; simp [joinTail]
  | cons i rest ih =>
    intro acc
    simp only [List.foldl_cons, List.map_cons, joinTail]
    rw [ih]
    simp [String.data_append]

/-- `buildGroupKey` is the character-level separator join of the pieces. -/
theorem buildGroupKey_data (groupByIndices : List ℤ) (row : Row) :
    (buildGroupKey groupByIndices row).data =
      joinSep (groupByIndices.map fun i => (groupKeyPiece row i).data) := by
  cases groupByIndices with
  | nil => rfl
  | cons idx rest =>
    simp only [buildGroupKey, List.map_cons, joinSep]
    exact buildGroupKey_foldl_data row rest (groupKeyPiece row idx)

end Golap

namespace Golap

/-! ## Claim C6: group-key injectivity -/

/-- **C6** (the claim as stated is false). Two rows whose group-by value
sequences differ — one holds the integer `1`, the other the string `"1"` —
receive the same composite key `"1"`, because `%v` renders both values
identically; `buildGroupKey` is therefore not injective on group-by value
tuples and the two rows are merged into one group. -/
theorem buildGroupKey_collision :
    groupByValues [0] ⟨[.vInt 1]⟩ ≠ groupByValues [0] ⟨[.vStr "1"]⟩ ∧
      buildGroupKey [0] ⟨[.vInt 1]⟩ = buildGroupKey [0] ⟨[.vStr "1"]⟩ := by
  constructor <;> decide

/-- Equal maps over the same list give pointwise-equal functions on its
members. -/
theorem map_eq_map_pointwise {α β : Type} (f g : α → β) :
    ∀ l : List α, l.map f = l.map g → ∀ i ∈ l, f i = g i := by
  intro l
  induction l with
  | nil => intro _ i hi; simp at hi
  | cons j rest ih =>
    intro hfg i hi
    simp only [List.map_cons, List.cons.injEq] at hfg
    rcases List.mem_cons.1 hi with rfl | hi'
    · exact hfg.1
    · exact ih hfg.2 i hi'

/-- **C6** (amended). `buildGroupKey` is injective on rows whose group-by
columns are all in range and hold string values that do not contain the
`'\x00'` separator character: for such rows, differing group-by value
sequences yield different keys. (The counterexample forces both
restrictions: values of different dynamic types can render identically
under `%v`, and a string containing the separator can imitate the
separator.) -/
theorem buildGroupKey_injective_nulFree_strings (indices : List ℤ)
    (r1 r2 : Row)
    (h1 : ∀ idx ∈ indices, 0 ≤ idx ∧ ∃ s : String,
      r1.values.get? idx.toNat = some (.vStr s) ∧ '\x00' ∉ s.data)
    (h2 : ∀ idx ∈ indices, 0 ≤ idx ∧ ∃ s : String,
      r2.values.get? idx.toNat = some (.vStr s) ∧ '\x00' ∉ s.data)
    (hne : groupByValues indices r1 ≠ groupByValues indices r2) :
    buildGroupKey indices r1 ≠ buildGroupKey indices r2 := by
  intro hkey
  apply hne
  -- The pieces of both keys coincide...
  have hrange : ∀ (r : Row) (idx : ℤ) (s : String),
      0 ≤ idx → r.values.get? idx.toNat = some (.vStr s) →
      (0 ≤ idx ∧ idx < (r.values.length : ℤ)) := by
    intro r idx s hnneg hget
    refine ⟨hnneg, ?_⟩
    have := List.get?_eq_some.1 hget
    obtain ⟨hlt, -⟩ := this
    omega
  have hpiece1 : ∀ idx ∈ indices, ∃ s : String,
      groupKeyPiece r1 idx = s ∧ r1.values.get? idx.toNat = some (.vStr s) ∧
        '\x00' ∉ s.data := by
    intro idx hidx
    obtain ⟨hnneg, s, hget, hnul⟩ := h1 idx hidx
    refine ⟨s, ?_, hget, hnul⟩
    unfold groupKeyPiece
    rw [if_pos (hrange r1 idx s hnneg hget), hget]
    rfl
  have hpiece2 : ∀ idx ∈ indices, ∃ s : String,
      groupKeyPiece r2 idx = s ∧ r2.values.get? idx.toNat = some (.vStr s) ∧
        '\x00' ∉ s.data := by
    intro idx hidx
    obtain ⟨hnneg, s, hget, hnul⟩ := h2 idx hidx
    refine ⟨s, ?_, hget, hnul⟩
    unfold groupKeyPiece
    rw [if_pos (hrange r2 idx s hnneg hget), hget]
    rfl
  have hjoin : joinSep (indices.map fun i => (groupKeyPiece r1 i).data) =
      joinSep (indices.map fun i => (groupKeyPiece r2 i).data) := by
    rw [← buildGroupKey_data, ← buildGroupKey_data, hkey]
  have hmaps := joinSep_inj _ _ (by simp)
    (by
      intro p hp
      simp only [List.mem_map] at hp
      obtain ⟨idx, hidx, rfl⟩ := hp
      obtain ⟨s, hs, -, hnul⟩ := hpiece1 idx hidx
      rw [hs]; exact hnul)
    (by
      intro p hp
      simp only [List.mem_map] at hp
      obtain ⟨idx, hidx, rfl⟩ := hp
      obtain ⟨s, hs, -, hnul⟩ := hpiece2 idx hidx
      rw [hs]; exact hnul)
    hjoin
  -- ... and pointwise equal pieces give pointwise equal group-by values.
  unfold groupByValues
  apply List.map_congr_left
  intro idx hidx
  obtain ⟨s1, hs1, hget1, -⟩ := hpiece1 idx hidx
  obtain ⟨s2, hs2, hget2, -⟩ := hpiece2 idx hidx
  obtain ⟨hnneg1, -⟩ := h1 idx hidx
  obtain ⟨hnneg2, -⟩ := h2 idx hidx
  have hb1 := hrange r1 idx s1 hnneg1 hget1
  have hb2 := hrange r2 idx s2 hnneg2 hget2
  have hpieceeq : (groupKeyPiece r1 idx).data = (groupKeyPiece r2 idx).data :=
    map_eq_map_pointwise _ _ indices hmaps idx hidx
  have hs : s1 = s2 := by
    apply str_data_inj
    rw [← congrArg String.data hs1, ← congrArg String.data hs2]
    exact hpieceeq
  simp only [hb1, hb2, and_self, if_true, hget1, hget2, hs]

/-- Witness for the amended C6 at concrete rows holding the NUL-free
strings `"a"` and `"b"` in their single group-by column. -/
theorem buildGroupKey_injective_nulFree_strings_witness :
    groupByValues [0] ⟨[.vStr "a"]⟩ ≠ groupByValues [0] ⟨[.vStr "b"]⟩ ∧
      buildGroupKey [0] ⟨[.vStr "a"]⟩ ≠ buildGroupKey [0] ⟨[.vStr "b"]⟩ :=
  ⟨by decide,
    buildGroupKey_injective_nulFree_strings [0] ⟨[.vStr "a"]⟩ ⟨[.vStr "b"]⟩
      (by intro idx hidx; simp at hidx; subst hidx
          exact ⟨by decide, "a", by decide, by decide⟩)
      (by intro idx hidx; simp at hidx; subst hidx
          exact ⟨by decide, "b", by decide, by decide⟩)
      (by decide)⟩

end Golap

namespace Golap

/-! ## Claim C4: closing operators (`Close` methods across the tree)

Every operator tree the planner builds is a chain of wrapping operators
(Filter, Project, ScalarAggregate, HashAggregate, ExternalSort, Limit) over
one `CSVScan` leaf; each `Close` forwards to the upstream `Close`. The only
stateful resource whose close can fail is the scan's `*os.File`:
`os.File.Close` returns nil once and a "file already closed" error on every
later call. `SortOp.Close` additionally closes and removes its run files,
but discards those errors (`f.Close()` and `os.Remove` results are
ignored), so they never affect the returned error; the run files themselves
are modelled with the merge state machine below. -/

/-- `os.File.Close`: first call closes and returns nil; later calls return
an error. Result is (file still open?, error returned?). -/
def osFileClose (fileOpen : Bool) : Bool × Bool :=
  if fileOpen then (false, false) else (false, true)

/-- `CSVScan.Close` (`scan.go`): `s.file` is set at construction, never
nil and never reset, so the nil guard always passes and every call forwards
to `os.File.Close` — the second call returns its double-close error. -/
def CSVScan.Close (fileOpen : Bool) : Bool × Bool :=
  osFileClose fileOpen

/-- The kinds of wrapping operators a plan can stack over a scan. -/
inductive OpKind where
  | filterOp
  | projectOp
  | scalarAggOp
  | hashAggOp
  | sortOp
  | limitOp
deriving DecidableEq, Repr

/-- `Close` of a whole operator chain (outermost first) over a scan whose
file-handle state is `fileOpen`. Filter, Project, both aggregates and Limit
return `input.Close()` unchanged; `SortOp.Close` returns early with the
upstream error if there is one and otherwise performs its best-effort
run-file cleanup, whose errors are discarded, and returns nil — in both
cases the returned error is exactly the upstream one. -/
def closeChain : List OpKind → Bool → Bool × Bool
  | [], fileOpen => CSVScan.Close fileOpen
  | k :: rest, fileOpen =>
    let inner := closeChain rest fileOpen
    match k with
    | .sortOp => inner
    | _ => inner

/-- **C4** (the code contradicts the claim; the spec's idempotent-close
requirement is the intent — the scan even guards `s.file != nil`, but never
resets `s.file`, so the guard cannot help). Closing any operator chain
before any `Next()` succeeds with no error, but closing twice in a row
returns a double-close error from the scan's file handle on the second
call (no resource is released twice: the second `os.File.Close` is
rejected). The claim's "calling Close() twice in a row … returns no error"
is therefore false for every chain. -/
theorem closeChain_twice_errors :
    (∀ chain : List OpKind, closeChain chain true = (false, false)) ∧
      ∀ chain : List OpKind,
        (closeChain chain (closeChain chain true).1).2 = true := by
  have hfresh : ∀ chain : List OpKind, closeChain chain true = (false, false) := by
    intro chain
    induction chain with
    | nil => rfl
    | cons k rest ih => cases k <;> simp [closeChain, ih]
  have hclosed : ∀ chain : List OpKind, closeChain chain false = (false, true) := by
    intro chain
    induction chain with
    | nil => rfl
    | cons k rest ih => cases k <;> simp [closeChain, ih]
  refine ⟨hfresh, fun chain => ?_⟩
  rw [hfresh chain]
  rw [hclosed chain]

end Golap

namespace Golap

/-! ## Zone-map generation (`metadata/zonemap.go`, `GenerateZoneMap`) -/

/-- Go map assignment `m[k] = v` on an association list with unique keys:
replace the existing entry or append a fresh one. -/
def setEntry : List (String × ℤ) → String → ℤ → List (String × ℤ)
  | [], k, v => [(k, v)]
  | (k', v') :: rest, k, v =>
    if k' = k then (k, v) :: rest else (k', v') :: setEntry rest k v

/-- Go map deletion `delete(m, k)`. -/
def delEntry (m : List (String × ℤ)) (k : String) : List (String × ℤ) :=
  m.filter fun p => p.1 ≠ k

/-- Go map read `m[k]` with the `int64` zero value for a missing key. -/
def lookupD (m : List (String × ℤ)) (k : String) : ℤ :=
  (m.lookup k).getD 0

/-- Go set insertion `m[k] = true` for the `map[string]bool` of tracked
columns. -/
def addName (l : List String) (k : String) : List String :=
  if k ∈ l then l else k :: l

/-- Go set deletion `delete(m, k)`. -/
def delName (l : List String) (k : String) : List String :=
  l.filter fun x => x ≠ k

/-- The in-progress tracking state of `GenerateZoneMap`: the set of columns
still believed integer, and the min/max accumulators. (The Go code also
fills an `initialized` map that is never read; it is omitted.) -/
structure ZMState where
  isIntColumn : List String
  minValues : List (String × ℤ)
  maxValues : List (String × ℤ)
deriving DecidableEq, Repr

/-- Processing of one indexed cell of the first data row: a cell under the
header whose value parses as an integer marks its column tracked with both
bounds equal to the value. -/
def processFirstCell (header : List String) (st : ZMState) (cell : ℕ × String) :
    ZMState :=
  match header.get? cell.1 with
  | none => st
  | some colName =>
    match goParseInt? cell.2 with
    | some v =>
      { isIntColumn := addName st.isIntColumn colName,
        minValues := setEntry st.minValues colName v,
        maxValues := setEntry st.maxValues colName v }
    | none => st

/-- Processing of one indexed cell of a later row (`GenerateZoneMap`'s inner
loop): indices beyond the header are skipped; untracked columns are
skipped; a failed integer parse drops the column and its bounds for good;
a successful parse widens the bounds. -/
def processCell (header : List String) (st : ZMState) (cell : ℕ × String) :
    ZMState :=
  match header.get? cell.1 with
  | none => st
  | some colName =>
    if colName ∈ st.isIntColumn then
      match goParseInt? cell.2 with
      | none =>
        -- This value isn't an integer; mark column as non-integer
        { isIntColumn := delName st.isIntColumn colName,
          minValues := delEntry st.minValues colName,
          maxValues := delEntry st.maxValues colName }
      | some v =>
        let st1 :=
          if v < lookupD st.minValues colName then
            { st with minValues := setEntry st.minValues colName v }
          else st
        if v > lookupD st1.maxValues colName then
          { st1 with maxValues := setEntry st1.maxValues colName v }
        else st1
    else st

/-- Processing of one whole data row after the first. -/
def processRecord (header : List String) (st : ZMState) (record : List String) :
    ZMState :=
  record.enum.foldl (processCell header) st

/-- `metadata.GenerateZoneMap` on the parsed CSV contents (header row and
data records; file I/O and CSV framing are outside the model): an empty
file yields an empty map; otherwise the first data row picks the candidate
integer columns and every later row narrows or drops them. -/
def GenerateZoneMap (header : List String) (rows : List (List String)) :
    ZoneMap :=
  match rows with
  | [] => { RowCount := 0, MinValues := [], MaxValues := [] }
  | firstRow :: rest =>
    let st0 := firstRow.enum.foldl (processFirstCell header) ⟨[], [], []⟩
    let stF := rest.foldl (processRecord header) st0
    { RowCount := 1 + rest.length,
      MinValues := stF.minValues,
      MaxValues := stF.maxValues }

/-- The view of one column's tracking state: (tracked?, min bound, max
bound). -/
def colEntry (st : ZMState) (c : String) : Bool × Option ℤ × Option ℤ :=
  (decide (c ∈ st.isIntColumn), st.minValues.lookup c, st.maxValues.lookup c)

/-- The transition `processCell` induces on a single column's view when the
cell belongs to that column. -/
def entryStep (e : Bool × Option ℤ × Option ℤ) (val : String) :
    Bool × Option ℤ × Option ℤ :=
  if e.1 then
    match goParseInt? val with
    | none => (false, none, none)
    | some v =>
      (true,
        if v < e.2.1.getD 0 then some v else e.2.1,
        if v > e.2.2.getD 0 then some v else e.2.2)
  else e

/-- The transition `processFirstCell` induces on a single column's view
when the cell belongs to that column. -/
def entryFirstStep (e : Bool × Option ℤ × Option ℤ) (val : String) :
    Bool × Option ℤ × Option ℤ :=
  match goParseInt? val with
  | some v => (true, some v, some v)
  | none => e

end Golap

namespace Golap

/-! ### Association-list facts for the zone-map state -/

theorem lookup_setEntry_self (k : String) (v : ℤ) :
    ∀ m : List (String × ℤ), (setEntry m k v).lookup k = some v := by
  intro m
  induction m with
  | nil => simp [setEntry, List.lookup]
  | cons p rest ih =>
    rcases p with ⟨k', v'⟩
    by_cases h : k' = k
    · subst h; simp [setEntry, List.lookup]
    · simp only [setEntry, if_neg h, List.lookup]
      rw [show (k == k') = false by simpa using Ne.symm h]
      exact ih

theorem lookup_setEntry_ne (c k : String) (v : ℤ) (hck : c ≠ k) :
    ∀ m : List (String × ℤ), (setEntry m k v).lookup c = m.lookup c := by
  intro m
  induction m with
  | nil =>
    simp only [setEntry, List.lookup]
    rw [show (c == k) = false by simpa using hck]
  | cons p rest ih =>
    rcases p with ⟨k', v'⟩
    by_cases h : k' = k
    · subst h
      simp only [setEntry, if_pos rfl, List.lookup]
      rw [show (c == k') = false by simpa using hck]
    · simp only [setEntry, if_neg h, List.lookup]
      by_cases hc : c = k'
      · subst hc; simp
      · rw [show (c == k') = false by simpa using hc]
        exact ih

theorem lookup_delEntry_self (k : String) (m : List (String × ℤ)) :
    (delEntry m k).lookup k = none := by
  induction m with
  | nil => rfl
  | cons p rest ih =>
    rcases p with ⟨k', v'⟩
    by_cases h : k' = k
    · subst h; simpa [delEntry] using ih
    · simp only [delEntry, List.filter_cons]
      rw [show (decide ¬(k', v').1 = k) = true by simp [h]]
      simp only [List.lookup]
      rw [show (k == k') = false by simpa using Ne.symm h]
      exact ih

theorem lookup_delEntry_ne (c k : String) (hck : c ≠ k)
    (m : List (String × ℤ)) : (delEntry m k).lookup c = m.lookup c := by
  induction m with
  | nil => rfl
  | cons p rest ih =>
    rcases p with ⟨k', v'⟩
    by_cases h : k' = k
    · subst h
      simp only [delEntry, List.filter_cons]
      rw [show (decide ¬(k', v').1 = k') = false by simp]
      simp only [List.lookup]
      rw [show (c == k') = false by simpa using hck]
      simpa [delEntry] using ih
    · simp only [delEntry, List.filter_cons]
      rw [show (decide ¬(k', v').1 = k) = true by simp [h]]
      simp only [List.lookup]
      by_cases hc : c = k'
      · subst hc; simp
      · rw [show (c == k') = false by simpa using hc]
        exact ih

theorem mem_addName_iff (c k : String) (l : List String) :
    c ∈ addName l k ↔ (c = k ∨ c ∈ l) := by
  unfold addName
  by_cases h : k ∈ l
  · simp only [if_pos h]
    constructor
    · exact Or.inr
    · rintro (rfl | hc)
      · exact h
      · exact hc
  · simp [if_neg h]

theorem mem_delName_iff (c k : String) (l : List String) :
    c ∈ delName l k ↔ (c ∈ l ∧ c ≠ k) := by
  simp [delName]

end Golap

namespace Golap

/-! ### How one cell changes one column's tracking entry -/

/-- A cell belonging to column `c` transforms `c`'s entry by `entryStep`. -/
theorem processCell_entry_own (header : List String) (st : ZMState) (i : ℕ)
    (val c : String) (hc : header.get? i = some c) :
    colEntry (processCell header st (i, val)) c =
      entryStep (colEntry st c) val := by
  unfold processCell entryStep
  simp only [hc]
  by_cases hmem : c ∈ st.isIntColumn
  · rw [if_pos hmem]
    have hdec : (colEntry st c).1 = true := by
      simp [colEntry, hmem]
    rw [if_pos hdec]
    cases hp : goParseInt? val with
    | none =>
      simp only [colEntry]
      refine congrArg₂ Prod.mk ?_ (congrArg₂ Prod.mk ?_ ?_)
      · simp [mem_delName_iff]
      · exact lookup_delEntry_self c st.minValues
      · exact lookup_delEntry_self c st.maxValues
    | some v =>
      simp only [colEntry, lookupD]
      by_cases h1 : v < (st.minValues.lookup c).getD 0 <;>
        by_cases h2 : v > (st.maxValues.lookup c).getD 0 <;>
          simp only [if_pos, if_neg, h1, h2, if_true, if_false, ite_true,
            ite_false, lookup_setEntry_self, hmem, decide_eq_true_eq] <;>
            simp [hmem, h1, h2, lookup_setEntry_self]
  · rw [if_neg hmem]
    have hdec : (colEntry st c).1 = false := by
      simp [colEntry, hmem]
    rw [if_neg (by simp [hdec])]

/-- A cell belonging to a different column (or none) leaves `c`'s entry
unchanged. -/
theorem processCell_entry_other (header : List String) (st : ZMState) (j : ℕ)
    (val c : String) (hc : header.get? j ≠ some c) :
    colEntry (processCell header st (j, val)) c = colEntry st c := by
  cases hj : header.get? j with
  | none => unfold processCell; rw [hj]
  | some d =>
    have hdc : c ≠ d := fun h => hc (h ▸ hj)
    unfold processCell
    simp only [hj]
    by_cases hmem : d ∈ st.isIntColumn
    · rw [if_pos hmem]
      cases hp : goParseInt? val with
      | none =>
        simp only [colEntry]
        refine congrArg₂ Prod.mk ?_ (congrArg₂ Prod.mk ?_ ?_)
        · simp [mem_delName_iff, hdc]
        · exact lookup_delEntry_ne c d hdc st.minValues
        · exact lookup_delEntry_ne c d hdc st.maxValues
      | some v =>
        by_cases h1 : v < lookupD st.minValues d <;>
          by_cases h2 : v > lookupD st.maxValues d <;>
            simp [h1, h2, colEntry, lookup_setEntry_ne c d _ hdc]
    · rw [if_neg hmem]

/-- A first-row cell belonging to column `c` transforms `c`'s entry by
`entryFirstStep`. -/
theorem processFirstCell_entry_own (header : List String) (st : ZMState)
    (i : ℕ) (val c : String) (hc : header.get? i = some c) :
    colEntry (processFirstCell header st (i, val)) c =
      entryFirstStep (colEntry st c) val := by
  unfold processFirstCell entryFirstStep
  simp only [hc]
  cases hp : goParseInt? val with
  | none => rfl
  | some v =>
    simp only [colEntry]
    refine congrArg₂ Prod.mk ?_ (congrArg₂ Prod.mk ?_ ?_)
    · simp [mem_addName_iff]
    · exact lookup_setEntry_self c v st.minValues
    · exact lookup_setEntry_self c v st.maxValues

/-- A first-row cell of a different column (or none) leaves `c`'s entry
unchanged. -/
theorem processFirstCell_entry_other (header : List String) (st : ZMState)
    (j : ℕ) (val c : String) (hc : header.get? j ≠ some c) :
    colEntry (processFirstCell header st (j, val)) c = colEntry st c := by
  unfold processFirstCell
  cases hj : header.get? j with
  | none => rfl
  | some d =>
    have hdc : c ≠ d := fun h => hc (h ▸ hj)
    cases hp : goParseInt? val with
    | none => rfl
    | some v =>
      simp only [colEntry]
      refine congrArg₂ Prod.mk ?_ (congrArg₂ Prod.mk ?_ ?_)
      · simp [mem_addName_iff, hdc]
      · exact lookup_setEntry_ne c d v hdc st.minValues
      · exact lookup_setEntry_ne c d v hdc st.maxValues

end Golap

namespace Golap

/-! ### Folding a row's cells, viewed through one column's entry -/

/-- Generic localization: folding the indexed cells of a record changes
column `c`'s entry exactly by the step of `c`'s own cell (index `i`), and
not at all when `i` is outside the record's index range. -/
theorem foldl_enumFrom_entry
    (f : ZMState → ℕ × String → ZMState)
    (estep : (Bool × Option ℤ × Option ℤ) → String →
      (Bool × Option ℤ × Option ℤ))
    (c : String) (i : ℕ)
    (hown : ∀ st val, colEntry (f st (i, val)) c = estep (colEntry st c) val)
    (hother : ∀ st j val, j ≠ i →
      colEntry (f st (j, val)) c = colEntry st c) :
    ∀ (record : List String) (off : ℕ) (st : ZMState),
      ((i < off ∨ off + record.length ≤ i) →
        colEntry ((record.enumFrom off).foldl f st) c = colEntry st c) ∧
      (∀ v, off ≤ i → record.get? (i - off) = some v →
        colEntry ((record.enumFrom off).foldl f st) c =
          estep (colEntry st c) v) := by
  intro record
  induction record with
  | nil =>
    intro off st
    exact ⟨fun _ => rfl, fun v _ hv => by simp at hv⟩
  | cons w ws ih =>
    intro off st
    simp only [List.enumFrom_cons, List.foldl_cons]
    constructor
    · intro hrange
      have hoff : off ≠ i := by
        simp only [List.length_cons] at hrange
        omega
      rw [(ih (off + 1) (f st (off, w))).1
        (by simp only [List.length_cons] at hrange; omega)]
      exact hother st off w hoff
    · intro v hoi hv
      by_cases hoff : off = i
      · subst hoff
        simp only [Nat.sub_self, List.get?_cons_zero, Option.some.injEq] at hv
        subst hv
        rw [(ih (off + 1) (f st (off, w))).1 (Or.inl (by omega))]
        exact hown st w
      · have hlt : off < i := by omega
        have hv' : ws.get? (i - (off + 1)) = some v := by
          have : i - off = (i - (off + 1)) + 1 := by omega
          rw [this] at hv
          simpa using hv
        rw [(ih (off + 1) (f st (off, w))).2 v (by omega) hv']
        rw [hother st off w hoff]

/-- Entry evolution across one whole later row: with a duplicate-free
header, the entry of column `c` (sitting at header index `i`) moves by
`entryStep` on the row's `i`-th cell. -/
theorem processRecord_entry (header : List String) (c : String) (i : ℕ)
    (hnodup : header.Nodup) (hc : header.get? i = some c)
    (record : List String) (st : ZMState) (v : String)
    (hv : record.get? i = some v) :
    colEntry (processRecord header st record) c =
      entryStep (colEntry st c) v := by
  have hother : ∀ (st : ZMState) (j : ℕ) (val : String), j ≠ i →
      colEntry (processCell header st (j, val)) c = colEntry st c := by
    intro st j val hji
    apply processCell_entry_other
    intro hjc
    have hi : i < header.length := by
      have := List.get?_eq_some.1 hc
      exact this.choose
    exact hji (List.get?_inj (List.get?_eq_some.1 hjc).choose hnodup (hjc.trans hc.symm))
  unfold processRecord
  rw [show record.enum = record.enumFrom 0 from rfl]
  exact (foldl_enumFrom_entry (processCell header) entryStep c i
    (fun st val => processCell_entry_own header st i val c hc)
    hother record 0 st).2 v (Nat.zero_le i) (by simpa using hv)

/-- Entry evolution across the first row, from the empty initial state. -/
theorem firstRow_entry (header : List String) (c : String) (i : ℕ)
    (hnodup : header.Nodup) (hc : header.get? i = some c)
    (firstRow : List String) (v : String) (hv : firstRow.get? i = some v) :
    colEntry (firstRow.enum.foldl (processFirstCell header) ⟨[], [], []⟩) c =
      entryFirstStep (false, none, none) v := by
  have hother : ∀ (st : ZMState) (j : ℕ) (val : String), j ≠ i →
      colEntry (processFirstCell header st (j, val)) c = colEntry st c := by
    intro st j val hji
    apply processFirstCell_entry_other
    intro hjc
    exact hji (List.get?_inj (List.get?_eq_some.1 hjc).choose hnodup (hjc.trans hc.symm))
  rw [show firstRow.enum = firstRow.enumFrom 0 from rfl]
  have := (foldl_enumFrom_entry (processFirstCell header) entryFirstStep c i
    (fun st val => processFirstCell_entry_own header st i val c hc)
    hother firstRow 0 ⟨[], [], []⟩).2 v (Nat.zero_le i) (by simpa using hv)
  rw [this]
  rfl

/-- A column absent from the header is never touched: by either phase's
fold, over any cells. -/
theorem foldl_entry_const
    (f : ZMState → ℕ × String → ZMState) (c : String)
    (hconst : ∀ st cell, colEntry (f st cell) c = colEntry st c) :
    ∀ (cells : List (ℕ × String)) (st : ZMState),
      colEntry (cells.foldl f st) c = colEntry st c := by
  intro cells
  induction cells with
  | nil => intro st; rfl
  | cons cell cells ih => intro st; rw [List.foldl_cons, ih, hconst]

end Golap

namespace Golap

/-! ### The life of one column's entry across the scan -/

/-- An untracked entry is never changed again by later cells. -/
theorem entryStep_untracked (e : Bool × Option ℤ × Option ℤ) (v : String)
    (he : e.1 = false) : entryStep e v = e := by
  simp [entryStep, he]

/-- An untracked entry stays untracked and unchanged across any further
rows: dropping a column is permanent. -/
theorem foldl_entryStep_untracked :
    ∀ (vals : List String) (e : Bool × Option ℤ × Option ℤ),
      e.1 = false → vals.foldl entryStep e = e := by
  intro vals
  induction vals with
  | nil => intro e _; rfl
  | cons v vals ih =>
    intro e he
    rw [List.foldl_cons, entryStep_untracked e v he, ih e he]

/-- One step keeps an entry tracked exactly when it was tracked and the new
cell parses as an integer. -/
theorem entryStep_tracked_iff (e : Bool × Option ℤ × Option ℤ) (v : String) :
    (entryStep e v).1 = true ↔ (e.1 = true ∧ (goParseInt? v).isSome) := by
  cases he : e.1 with
  | false => simp [entryStep_untracked e v he, he]
  | true =>
    cases hp : goParseInt? v with
    | none => simp [entryStep, he, hp]
    | some w => simp [entryStep, he, hp]

/-- A whole scan keeps an entry tracked exactly when it started tracked and
every row's cell parses as an integer. -/
theorem foldl_entryStep_tracked_iff :
    ∀ (vals : List String) (e : Bool × Option ℤ × Option ℤ),
      (vals.foldl entryStep e).1 = true ↔
        (e.1 = true ∧ ∀ v ∈ vals, (goParseInt? v).isSome) := by
  intro vals
  induction vals with
  | nil => intro e; simp
  | cons v vals ih =>
    intro e
    rw [List.foldl_cons, ih (entryStep e v)]
    rw [entryStep_tracked_iff]
    constructor
    · rintro ⟨⟨h1, h2⟩, h3⟩
      exact ⟨h1, by intro w hw; rcases List.mem_cons.1 hw with rfl | hw'
                    exacts [h2, h3 w hw']⟩
    · rintro ⟨h1, h2⟩
      exact ⟨⟨h1, h2 v (List.mem_cons_self v vals)⟩,
        fun w hw => h2 w (List.mem_cons_of_mem v hw)⟩

/-- The invariant tying the tracked flag to the presence of both bounds. -/
def EInv (e : Bool × Option ℤ × Option ℤ) : Prop :=
  (e.1 = true ↔ e.2.1.isSome) ∧ (e.1 = true ↔ e.2.2.isSome)

theorem entryStep_EInv (e : Bool × Option ℤ × Option ℤ) (v : String)
    (he : EInv e) : EInv (entryStep e v) := by
  cases hb : e.1 with
  | false => rw [entryStep_untracked e v hb]; exact he
  | true =>
    cases hp : goParseInt? v with
    | none => simp [entryStep, hb, hp, EInv]
    | some w =>
      obtain ⟨m, hm⟩ := Option.isSome_iff_exists.1 (he.1.1 hb)
      obtain ⟨M, hM⟩ := Option.isSome_iff_exists.1 (he.2.1 hb)
      simp only [entryStep, hb, if_true, hp, EInv, hm, hM]
      constructor <;> split <;> simp

/-- One step can only lower the stored minimum. -/
theorem entryStep_min_mono (e : Bool × Option ℤ × Option ℤ) (v : String)
    (he : EInv e) (m' : ℤ) (hm' : (entryStep e v).2.1 = some m') :
    ∃ m, e.2.1 = some m ∧ m' ≤ m := by
  cases hb : e.1 with
  | false => rw [entryStep_untracked e v hb] at hm'; exact ⟨m', hm', le_refl m'⟩
  | true =>
    obtain ⟨m, hm⟩ := Option.isSome_iff_exists.1 (he.1.1 hb)
    cases hp : goParseInt? v with
    | none => simp [entryStep, hb, hp] at hm'
    | some w =>
      refine ⟨m, hm, ?_⟩
      simp only [entryStep, hb, if_true, hp, hm, Option.getD_some] at hm'
      split at hm' <;> simp_all <;> omega

/-- One step can only raise the stored maximum. -/
theorem entryStep_max_mono (e : Bool × Option ℤ × Option ℤ) (v : String)
    (he : EInv e) (M' : ℤ) (hM' : (entryStep e v).2.2 = some M') :
    ∃ M, e.2.2 = some M ∧ M ≤ M' := by
  cases hb : e.1 with
  | false => rw [entryStep_untracked e v hb] at hM'; exact ⟨M', hM', le_refl M'⟩
  | true =>
    obtain ⟨M, hM⟩ := Option.isSome_iff_exists.1 (he.2.1 hb)
    cases hp : goParseInt? v with
    | none => simp [entryStep, hb, hp] at hM'
    | some w =>
      refine ⟨M, hM, ?_⟩
      simp only [entryStep, hb, if_true, hp, hM, Option.getD_some] at hM'
      split at hM' <;> simp_all <;> omega

/-- Across a whole scan the minimum only decreases. -/
theorem foldl_entryStep_min_mono :
    ∀ (vals : List String) (e : Bool × Option ℤ × Option ℤ), EInv e →
      ∀ m₂, (vals.foldl entryStep e).2.1 = some m₂ →
        ∃ m₁, e.2.1 = some m₁ ∧ m₂ ≤ m₁ := by
  intro vals
  induction vals with
  | nil => intro e _ m₂ h; exact ⟨m₂, h, le_refl m₂⟩
  | cons v vals ih =>
    intro e he m₂ h
    rw [List.foldl_cons] at h
    obtain ⟨m', hm', hle'⟩ := ih (entryStep e v) (entryStep_EInv e v he) m₂ h
    obtain ⟨m, hm, hle⟩ := entryStep_min_mono e v he m' hm'
    exact ⟨m, hm, le_trans hle' hle⟩

/-- Across a whole scan the maximum only increases. -/
theorem foldl_entryStep_max_mono :
    ∀ (vals : List String) (e : Bool × Option ℤ × Option ℤ), EInv e →
      ∀ M₂, (vals.foldl entryStep e).2.2 = some M₂ →
        ∃ M₁, e.2.2 = some M₁ ∧ M₁ ≤ M₂ := by
  intro vals
  induction vals with
  | nil => intro e _ M₂ h; exact ⟨M₂, h, le_refl M₂⟩
  | cons v vals ih =>
    intro e he M₂ h
    rw [List.foldl_cons] at h
    obtain ⟨M', hM', hle'⟩ := ih (entryStep e v) (entryStep_EInv e v he) M₂ h
    obtain ⟨M, hM, hle⟩ := entryStep_max_mono e v he M' hM'
    exact ⟨M, hM, le_trans hle hle'⟩

theorem foldl_entryStep_EInv :
    ∀ (vals : List String) (e : Bool × Option ℤ × Option ℤ), EInv e →
      EInv (vals.foldl entryStep e) := by
  intro vals
  induction vals with
  | nil => intro e he; exact he
  | cons v vals ih => intro e he; exact ih _ (entryStep_EInv e v he)

/-- Entry evolution across all the later rows: the column's entry is the
fold of `entryStep` over the column's cells, one per row. -/
theorem restFold_entry (header : List String) (c : String) (i : ℕ)
    (hnodup : header.Nodup) (hc : header.get? i = some c) :
    ∀ (rest : List (List String)) (st : ZMState),
      (∀ r ∈ rest, r.length = header.length) →
      colEntry (rest.foldl (processRecord header) st) c =
        (rest.map fun r => (r.get? i).getD "").foldl entryStep
          (colEntry st c) := by
  have hi : i < header.length := (List.get?_eq_some.1 hc).choose
  intro rest
  induction rest with
  | nil => intro st _; rfl
  | cons r rest ih =>
    intro st hlen
    have hr : r.get? i = some ((r.get? i).getD "") := by
      cases hget : r.get? i with
      | none =>
        have := List.get?_eq_none.1 hget
        rw [hlen r (List.mem_cons_self r rest)] at this
        omega
      | some v => rfl
    rw [List.foldl_cons, List.map_cons, List.foldl_cons,
      ih (processRecord header st r)
        (fun x hx => hlen x (List.mem_cons_of_mem r hx)),
      processRecord_entry header c i hnodup hc r st _ hr]

end Golap

namespace Golap

/-! ## Claim C8: tracked columns, permanent drops, monotone bounds -/

/-- **C8** (confirmed). For a well-formed CSV (duplicate-free header, every
record as long as the header): (a) the tracked columns of the generated
zone map are exactly the header columns whose value parses as an integer in
the first data row and in every subsequent row; (b) a name outside the
header is never tracked; (c) a column has a min bound iff it has a max
bound; (d) over any prefix/suffix split of the later rows, a column dropped
by the prefix stays dropped (never re-added), and while a column stays
tracked its min only decreases and its max only increases as rows are
scanned. -/
theorem GenerateZoneMap_tracked_monotone (header firstRow : List String)
    (rest : List (List String)) (hnodup : header.Nodup)
    (hlen1 : firstRow.length = header.length)
    (hlen : ∀ r ∈ rest, r.length = header.length) :
    (∀ (i : ℕ) (c : String), header.get? i = some c →
      (((GenerateZoneMap header (firstRow :: rest)).MinValues.lookup c).isSome
        ↔ ((∃ v, firstRow.get? i = some v ∧ (goParseInt? v).isSome) ∧
          ∀ r ∈ rest, ∀ v, r.get? i = some v → (goParseInt? v).isSome))) ∧
      (∀ c : String, c ∉ header →
        (GenerateZoneMap header (firstRow :: rest)).MinValues.lookup c
          = none) ∧
      (∀ c : String,
        ((GenerateZoneMap header (firstRow :: rest)).MinValues.lookup c).isSome
          ↔
        ((GenerateZoneMap header (firstRow :: rest)).MaxValues.lookup c).isSome)
        ∧
      (∀ l₁ l₂, rest = l₁ ++ l₂ → ∀ c : String,
        ((GenerateZoneMap header (firstRow :: l₁)).MinValues.lookup c = none →
          (GenerateZoneMap header (firstRow :: rest)).MinValues.lookup c
            = none) ∧
        (∀ m₂,
          (GenerateZoneMap header (firstRow :: rest)).MinValues.lookup c
              = some m₂ →
          ∃ m₁, (GenerateZoneMap header (firstRow :: l₁)).MinValues.lookup c
              = some m₁ ∧ m₂ ≤ m₁) ∧
        (∀ M₂,
          (GenerateZoneMap header (firstRow :: rest)).MaxValues.lookup c
              = some M₂ →
          ∃ M₁, (GenerateZoneMap header (firstRow :: l₁)).MaxValues.lookup c
              = some M₁ ∧ M₁ ≤ M₂)) := by
  set st0 : ZMState :=
    firstRow.enum.foldl (processFirstCell header) ⟨[], [], []⟩ with hst0
  have hGenMin : ∀ xs : List (List String),
      (GenerateZoneMap header (firstRow :: xs)).MinValues =
        (xs.foldl (processRecord header) st0).minValues := fun _ => rfl
  have hGenMax : ∀ xs : List (List String),
      (GenerateZoneMap header (firstRow :: xs)).MaxValues =
        (xs.foldl (processRecord header) st0).maxValues := fun _ => rfl
  have hentry_min : ∀ (st : ZMState) (c : String),
      st.minValues.lookup c = (colEntry st c).2.1 := fun _ _ => rfl
  have hentry_max : ∀ (st : ZMState) (c : String),
      st.maxValues.lookup c = (colEntry st c).2.2 := fun _ _ => rfl
  -- entry of st0 at a header column
  have hst0_entry : ∀ (i : ℕ) (c : String), header.get? i = some c →
      ∀ v, firstRow.get? i = some v →
      colEntry st0 c = entryFirstStep (false, none, none) v := by
    intro i c hc v hv
    exact firstRow_entry header c i hnodup hc firstRow v hv
  -- first-row cell always exists at a header index
  have hfirstcell : ∀ (i : ℕ) (c : String), header.get? i = some c →
      firstRow.get? i = some ((firstRow.get? i).getD "") := by
    intro i c hc
    have hi : i < header.length := (List.get?_eq_some.1 hc).choose
    cases hget : firstRow.get? i with
    | none =>
      have := List.get?_eq_none.1 hget
      omega
    | some v => rfl
  -- EInv of the first-step entry
  have hEInv0 : ∀ v : String, EInv (entryFirstStep (false, none, none) v) := by
    intro v
    unfold entryFirstStep EInv
    cases goParseInt? v <;> simp
  -- columns outside the header are never touched
  have hnotin_entry : ∀ (c : String), (∀ j, header.get? j ≠ some c) →
      ∀ xs : List (List String),
        colEntry (xs.foldl (processRecord header) st0) c =
          (false, none, none) := by
    intro c hall xs
    have hst0c : colEntry st0 c = (false, none, none) := by
      rw [hst0]
      rw [foldl_entry_const (processFirstCell header) c
        (fun st cell => processFirstCell_entry_other header st cell.1 cell.2 c
          (hall cell.1))]
      rfl
    have hrec : ∀ (st : ZMState) (r : List String),
        colEntry (processRecord header st r) c = colEntry st c := by
      intro st r
      exact foldl_entry_const (processCell header) c
        (fun st cell => processCell_entry_other header st cell.1 cell.2 c
          (hall cell.1)) r.enum st
    induction xs with
    | nil => exact hst0c
    | cons r xs ih =>
      rw [List.foldl_cons]
      -- re-run the outer induction with the new seed
      have : ∀ (st : ZMState), colEntry st c = (false, none, none) →
          ∀ ys : List (List String),
          colEntry (ys.foldl (processRecord header) st) c =
            (false, none, none) := by
        intro st hstc ys
        induction ys generalizing st with
        | nil => exact hstc
        | cons y ys ih2 =>
          rw [List.foldl_cons]
          exact ih2 (processRecord header st y) ((hrec st y).trans hstc)
      exact this (processRecord header st0 r) ((hrec st0 r).trans hst0c) xs
  -- the final entry at a header column, as an entryStep fold
  have hfinal_entry : ∀ (i : ℕ) (c : String), header.get? i = some c →
      ∀ (xs : List (List String)), (∀ r ∈ xs, r.length = header.length) →
      colEntry (xs.foldl (processRecord header) st0) c =
        (xs.map fun r => (r.get? i).getD "").foldl entryStep
          (entryFirstStep (false, none, none) ((firstRow.get? i).getD "")) := by
    intro i c hc xs hxs
    rw [restFold_entry header c i hnodup hc xs st0 hxs,
      hst0_entry i c hc _ (hfirstcell i c hc)]
  refine ⟨?_, ?_, ?_, ?_⟩
  · -- (a) tracked exactly when first row and all later rows parse
    intro i c hc
    have hv0 := hfirstcell i c hc
    rw [hGenMin, hentry_min, hfinal_entry i c hc rest hlen]
    set e0 := entryFirstStep (false, none, none) ((firstRow.get? i).getD "")
      with he0
    have hEInvF := foldl_entryStep_EInv (rest.map fun r => (r.get? i).getD "")
      e0 (hEInv0 _)
    rw [← hEInvF.1, foldl_entryStep_tracked_iff]
    have he0bit : e0.1 = (goParseInt? ((firstRow.get? i).getD "")).isSome := by
      rw [he0]
      unfold entryFirstStep
      cases goParseInt? ((firstRow.get? i).getD "") <;> rfl
    have he0iff : e0.1 = true ↔
        (∃ v, firstRow.get? i = some v ∧ (goParseInt? v).isSome) := by
      rw [he0bit]
      constructor
      · intro hs
        exact ⟨(firstRow.get? i).getD "", hv0, hs⟩
      · rintro ⟨v, hv, hs⟩
        have hveq : (firstRow.get? i).getD "" = v := by rw [hv]; rfl
        rw [hveq]
        exact hs
    rw [he0iff]
    constructor
    · rintro ⟨h1, h2⟩
      refine ⟨h1, ?_⟩
      intro r hr v hv
      have := h2 ((r.get? i).getD "") (List.mem_map_of_mem _ hr)
      rwa [hv, Option.getD_some] at this
    · rintro ⟨h1, h2⟩
      refine ⟨h1, ?_⟩
      intro v hv
      obtain ⟨r, hr, rfl⟩ := List.mem_map.1 hv
      have hi : i < header.length := (List.get?_eq_some.1 hc).choose
      cases hget : r.get? i with
      | none =>
        have := List.get?_eq_none.1 hget
        rw [hlen r hr] at this
        omega
      | some w =>
        exact h2 r hr w hget
  · -- (b) names outside the header are never tracked
    intro c hcmem
    have hall : ∀ j, header.get? j ≠ some c := by
      intro j h
      exact hcmem (List.get?_mem h)
    rw [hGenMin, hentry_min, hnotin_entry c hall rest]
  · -- (c) min bound present iff max bound present
    intro c
    by_cases hcmem : c ∈ header
    · obtain ⟨i, hc⟩ := List.mem_iff_get?.1 hcmem
      rw [hGenMin, hGenMax, hentry_min, hentry_max,
        hfinal_entry i c hc rest hlen]
      have hEInvF := foldl_entryStep_EInv
        (rest.map fun r => (r.get? i).getD "")
        (entryFirstStep (false, none, none) ((firstRow.get? i).getD ""))
        (hEInv0 ((firstRow.get? i).getD ""))
      rw [← hEInvF.1, ← hEInvF.2]
    · have hall : ∀ j, header.get? j ≠ some c := by
        intro j h
        exact hcmem (List.get?_mem h)
      rw [hGenMin, hGenMax, hentry_min, hentry_max, hnotin_entry c hall rest]
  · -- (d) permanence and monotone bounds over any split of the scan
    rintro l₁ l₂ rfl c
    have hfoldsplit : (l₁ ++ l₂).foldl (processRecord header) st0 =
        l₂.foldl (processRecord header) (l₁.foldl (processRecord header) st0)
      := List.foldl_append _ _ _ _
    by_cases hcmem : c ∈ header
    · obtain ⟨i, hc⟩ := List.mem_iff_get?.1 hcmem
      have hlen₁ : ∀ r ∈ l₁, r.length = header.length := fun r hr =>
        hlen r (List.mem_append_left l₂ hr)
      have hlen₂ : ∀ r ∈ l₂, r.length = header.length := fun r hr =>
        hlen r (List.mem_append_right l₁ hr)
      have hmid := hfinal_entry i c hc l₁ hlen₁
      have hEInvMid : EInv (colEntry (l₁.foldl (processRecord header) st0) c)
        := by
        rw [hmid]
        exact foldl_entryStep_EInv _ _ (hEInv0 _)
      have hfull : colEntry ((l₁ ++ l₂).foldl (processRecord header) st0) c =
          (l₂.map fun r => (r.get? i).getD "").foldl entryStep
            (colEntry (l₁.foldl (processRecord header) st0) c) := by
        rw [hfoldsplit]
        exact restFold_entry header c i hnodup hc l₂ _ hlen₂
      refine ⟨?_, ?_, ?_⟩
      · intro hnone
        rw [hGenMin, hentry_min] at hnone ⊢
        have htrk : (colEntry (l₁.foldl (processRecord header) st0) c).1
            = false := by
          cases hb : (colEntry (l₁.foldl (processRecord header) st0) c).1 with
          | false => rfl
          | true =>
            have := hEInvMid.1.1 hb
            rw [hnone] at this
            simp at this
        rw [hfull, foldl_entryStep_untracked _ _ htrk]
        exact hnone
      · intro m₂ hm₂
        rw [hGenMin, hentry_min] at hm₂ ⊢
        rw [hfull] at hm₂
        exact foldl_entryStep_min_mono _ _ hEInvMid m₂ hm₂
      · intro M₂ hM₂
        rw [hGenMax, hentry_max] at hM₂ ⊢
        rw [hfull] at hM₂
        exact foldl_entryStep_max_mono _ _ hEInvMid M₂ hM₂
    · have hall : ∀ j, header.get? j ≠ some c := by
        intro j h
        exact hcmem (List.get?_mem h)
      refine ⟨?_, ?_, ?_⟩
      · intro _
        rw [hGenMin, hentry_min, hnotin_entry c hall (l₁ ++ l₂)]
      · intro m₂ hm₂
        rw [hGenMin, hentry_min, hnotin_entry c hall (l₁ ++ l₂)] at hm₂
        simp at hm₂
      · intro M₂ hM₂
        rw [hGenMax, hentry_max, hnotin_entry c hall (l₁ ++ l₂)] at hM₂
        simp at hM₂

/-- Witness for C8 at a concrete CSV: header `a, b`; rows `(1, x), (0, 7)`.
Column `a` stays integer throughout (bounds [0, 1]); column `b` fails on
the first row and is never tracked. -/
theorem GenerateZoneMap_tracked_monotone_witness :
    (["a", "b"] : List String).Nodup ∧
      (GenerateZoneMap ["a", "b"] [["1", "x"], ["0", "7"]]).MinValues.lookup
          "a" = some 0 ∧
      (GenerateZoneMap ["a", "b"] [["1", "x"], ["0", "7"]]).MinValues.lookup
          "b" = none ∧
      ((((GenerateZoneMap ["a", "b"] [["1", "x"], ["0", "7"]]).MinValues.lookup
          "a").isSome ↔
        ((∃ v, (["1", "x"] : List String).get? 0 = some v ∧
            (goParseInt? v).isSome) ∧
          ∀ r ∈ [["0", "7"]], ∀ v, r.get? 0 = some v →
            (goParseInt? v).isSome))) :=
  ⟨by decide, by decide, by decide,
    (GenerateZoneMap_tracked_monotone ["a", "b"] ["1", "x"] [["0", "7"]]
      (by decide) (by decide) (by decide)).1 0 "a" (by decide)⟩

end Golap

namespace Golap

/-! ## External merge sort (`operators/sort.go`)

The partition phase buffers rows into chunks, sorts each chunk with
`sort.Slice` on a type-aware comparator, and serializes it as a CSV run; the
merge phase opens every run, keeps at most one buffered row per run in a
heap ordered by the same comparator, and pops/refills per `Next()`.

Modelling choices, each noted at its definition: run files are lists of
serialized cells (CSV framing round-trips records and is not re-modelled);
`sort.Slice` is an unstable sort whose output is specified only as "some
ordering with no element Less-before its predecessor", modelled by insertion
sort — every property proved below (multiset equality plus sortedness) is
insensitive to which sorted permutation an algorithm picks;
`container/heap` keeps a multiset of items from which `Pop` removes an item
that is minimal for `Less` (which minimal item is popped on ties is
unspecified), modelled by extracting the first minimal item. -/

/-- The type-aware value comparison used (in two verbatim copies) by
`SortOp.compareRows` and `mergeHeap.compareRows` (`sort.go`): same-type
values compare naturally, a type mismatch returns "equal" (0) as a safety
fallback. -/
def cmpVal (aVal bVal : Value) : ℤ :=
  match aVal with
  | .vInt av =>
    match bVal with
    | .vInt bv => if av < bv then -1 else if av > bv then 1 else 0
    | _ => 0
  | .vFloat av =>
    match bVal with
    | .vFloat bv => if av < bv then -1 else if av > bv then 1 else 0
    | _ => 0
  | .vStr av =>
    match bVal with
    | .vStr bv => cmpChars av.data bv.data
    | _ => 0
  | .vNull => 0

/-- `compareRows` (`sort.go`): compare two rows by the sort column; an
invalid column index, or an index beyond either row, compares "equal". -/
def compareRows (columnIndex : ℤ) (a b : Row) : ℤ :=
  if columnIndex < 0 ∨ (a.values.length : ℤ) ≤ columnIndex ∨
      (b.values.length : ℤ) ≤ columnIndex then 0
  else
    match a.values.get? columnIndex.toNat, b.values.get? columnIndex.toNat with
    | some aVal, some bVal => cmpVal aVal bVal
    | _, _ => 0 -- unreachable: the bounds were just checked

/-- The `Less` used both by `sort.Slice` in `flushChunk` and by
`mergeHeap.Less`: strictly smaller for ascending, strictly greater for
descending. -/
def sortLess (desc : Bool) (columnIndex : ℤ) (a b : Row) : Bool :=
  if desc then compareRows columnIndex a b > 0
  else compareRows columnIndex a b < 0

/-- "`a` sorts no later than `b`": `b` is not strictly `Less` than `a`. The
output order both of `sort.Slice` and of repeated heap pops. -/
def keyLe (desc : Bool) (columnIndex : ℤ) (a b : Row) : Prop :=
  sortLess desc columnIndex b a = false

instance (desc : Bool) (columnIndex : ℤ) :
    DecidableRel (keyLe desc columnIndex) := by
  intro a b
  unfold keyLe
  infer_instance

/-- Insertion of one row in front of the first element it is `Less` than:
the model of where an unstable comparison sort may put it. -/
def insertLess (less : Row → Row → Bool) (a : Row) : List Row → List Row
  | [] => [a]
  | b :: l => if less a b then a :: b :: l else b :: insertLess less a l

/-- The in-memory sort of one chunk (`sort.Slice` in `flushChunk`, and
also the whole-input in-memory reference sort of the spec's equivalence
property): a sorted permutation of the input for the given `Less`. -/
def sortRows (less : Row → Row → Bool) (l : List Row) : List Row :=
  l.foldr (insertLess less) []

/-- The chunking loop of `SortOp.prepare`: rows are buffered; whenever the
buffer reaches `chunkSize` it is flushed as one run; a non-empty remainder
is flushed at the end. (With `chunkSize = 0` every row is flushed alone,
as in Go where `len(chunk) >= 0` is always true.) -/
def chunksAux (chunkSize : ℕ) : List Row → List Row → List (List Row)
  | [], chunk => if chunk.isEmpty then [] else [chunk]
  | row :: rest, chunk =>
    let chunk' := chunk ++ [row]
    if chunkSize ≤ chunk'.length then chunk' :: chunksAux chunkSize rest []
    else chunksAux chunkSize rest chunk'

/-- All chunks of the input, in order. -/
def chunksOf (chunkSize : ℕ) (rows : List Row) : List (List Row) :=
  chunksAux chunkSize rows []

/-- One serialized cell of a temporary run file, tagged by the provenance
of its text: `rowToRecord` writes `strconv.FormatInt` for an `int64`,
`strconv.FormatFloat(v, 'f', -1, 64)` for a `float64`, the string itself
for a string, and `fmt.Sprintf("%v", nil) = "<nil>"` for nil. Both numeric
formats are injective and parse back to the same number, so remembering
the tagged value loses no information about the written text. -/
inductive Cell where
  | ofInt (z : ℤ)
  | ofFloat (q : ℚ)
  | ofStr (s : String)
deriving DecidableEq, Repr

/-- `rowToRecord`'s formatting of one value. -/
def valToCell : Value → Cell
  | .vInt z => .ofInt z
  | .vFloat q => .ofFloat q
  | .vStr s => .ofStr s
  | .vNull => .ofStr "<nil>"

/-- `SortOp.rowToRecord` (`sort.go`): serialize a row into one CSV record.
`encoding/csv` round-trips every record (quoting is lossless), so the CSV
framing itself is not modelled. -/
def rowToRecord (row : Row) : List Cell :=
  row.values.map valToCell

/-- The text of a cell, as read back by a String column or an out-of-schema
position. For a float cell the model renders `num/den` like `govFmt`; Go
renders a shortest decimal. Both are injective, and the branch is reachable
only for a float value in a String-typed or out-of-schema column, which no
row a scan or aggregate produces has and no claim exercises. -/
def cellText (c : Cell) : String :=
  match c with
  | .ofInt z => toString z
  | .ofFloat q => toString q.num ++ "/" ++ toString q.den
  | .ofStr s => s

/-- `parseValue` applied to the written text of a cell: the composition of
`rowToRecord`'s formatting and `recordToRow`'s parsing, case by case.
`strconv.FormatInt` output always re-parses (the engine's values are
int64); `strconv.FormatFloat('f', -1, 64)` output parses as an integer
exactly when the float is integral and in int64 range, and always re-parses
as the same float; a string cell goes through the ordinary `parseValue`
path on its text. -/
def parseCell (c : Cell) (dt : DataType) : Value :=
  match dt with
  | .int =>
    match c with
    | .ofInt z => .vInt z
    | .ofFloat q =>
      if q.den = 1 ∧ -(2 ^ 63) ≤ q.num ∧ q.num ≤ 2 ^ 63 - 1 then .vInt q.num
      else .vInt 0
    | .ofStr s => parseValue s .int
  | .float =>
    match c with
    | .ofInt z => .vFloat (z : ℚ)
    | .ofFloat q => .vFloat q
    | .ofStr s => parseValue s .float
  | .string => .vStr (cellText c)

/-- `SortOp.recordToRow` (`sort.go`): parse a run-file record back into a
row by the schema types; positions beyond the schema keep the raw text. -/
def recordToRowVals : List Cell → List DataType → List Value
  | [], _ => []
  | c :: cs, [] => .vStr (cellText c) :: recordToRowVals cs []
  | c :: cs, t :: ts => parseCell c t :: recordToRowVals cs ts

/-- A row as it comes back from a run file: written, then re-parsed. -/
def roundtripRow (types : List DataType) (row : Row) : Row :=
  ⟨recordToRowVals (rowToRecord row) types⟩

/-- The sorted runs `prepare` leaves on disk, as the merge phase will read
them back: each chunk sorted in memory, serialized, and re-parsed. -/
def SortOp.runsOf (types : List DataType) (columnIndex : ℤ) (desc : Bool)
    (chunkSize : ℕ) (rows : List Row) : List (List Row) :=
  (chunksOf chunkSize rows).map fun chunk =>
    (sortRows (sortLess desc columnIndex) chunk).map (roundtripRow types)

/-- The merge-phase state: per run, the rows not yet read into the heap;
and the heap, holding buffered rows tagged by their run index. -/
structure MergeState where
  runs : List (List Row)
  heap : List (Row × ℕ)
deriving DecidableEq, Repr

/-- `SortOp.setupMerge` (`sort.go`): open every run and push its first row
(if any) into the heap, tagged by the run's index. -/
def setupMerge (runs : List (List Row)) : MergeState :=
  { runs := runs.map List.tail,
    heap := runs.enum.filterMap fun p => p.2.head?.map fun r => (r, p.1) }

/-- `container/heap.Pop` on the merge heap: remove an item than which no
other is `Less` (the first such item in the model; the heap leaves the
choice on ties unspecified). Returns the removed item and the rest. -/
def extractMin (less : Row → Row → Bool) :
    List (Row × ℕ) → Option ((Row × ℕ) × List (Row × ℕ))
  | [] => none
  | x :: xs =>
    match extractMin less xs with
    | none => some (x, [])
    | some (m, rest) =>
      if less m.1 x.1 then some (m, x :: rest) else some (x, xs)

/-- `SortOp.Next`'s merge step (`sort.go`): an empty heap means the
operator is exhausted; otherwise pop the globally next row and refill the
heap with the next row of the same run, if that run has one. -/
def mergeNext (less : Row → Row → Bool) (st : MergeState) :
    Option (Row × MergeState) :=
  match extractMin less st.heap with
  | none => none
  | some ((r, j), heap') =>
    match st.runs.get? j with
    | some (x :: rest) =>
      some (r, { runs := st.runs.set j rest, heap := (x, j) :: heap' })
    | _ => some (r, { runs := st.runs, heap := heap' })

/-- Rows still to be emitted: buffered heap rows plus unread run rows. -/
def mergeContent (st : MergeState) : List Row :=
  st.heap.map Prod.fst ++ st.runs.join

/-- Total number of pending rows; strictly decreases per merge step. -/
def heapSize (st : MergeState) : ℕ :=
  st.heap.length + (st.runs.map List.length).sum

/-- The merge phase driven with explicit fuel (one unit per emitted row),
so the definition is structural and computable by evaluation. -/
def mergeOutFuel (less : Row → Row → Bool) : ℕ → MergeState → List Row
  | 0, _ => []
  | fuel + 1, st =>
    match mergeNext less st with
    | none => []
    | some (r, st') => r :: mergeOutFuel less fuel st'

/-- Every row the merge phase emits, in order: `heapSize` rows suffice
(each step consumes one pending row, as proved below). -/
def mergeOut (less : Row → Row → Bool) (st : MergeState) : List Row :=
  mergeOutFuel less (heapSize st) st

/-- The whole output sequence of `SortOp` (driving `Next()` to
exhaustion): partition into sorted runs, then K-way merge. -/
def SortOp.output (types : List DataType) (columnIndex : ℤ) (desc : Bool)
    (chunkSize : ℕ) (rows : List Row) : List Row :=
  mergeOut (sortLess desc columnIndex)
    (setupMerge (SortOp.runsOf types columnIndex desc chunkSize rows))

/-- `mergeSteps` iterates the merge step, as successive `Next()` calls do
(stalling at exhaustion). -/
def mergeSteps (less : Row → Row → Bool) : ℕ → MergeState → MergeState
  | 0, st => st
  | n + 1, st =>
    match mergeNext less st with
    | none => st
    | some (_, st') => mergeSteps less n st'

/-- The value-type discipline a row must satisfy for the schema: one value
per column, each of the column's declared dynamic type (no nulls). -/
def valMatches : DataType → Value → Bool
  | .int, .vInt _ => true
  | .float, .vFloat _ => true
  | .string, .vStr _ => true
  | _, _ => false

/-- A row well-typed for the schema types. -/
def wtRow (types : List DataType) (r : Row) : Bool :=
  r.values.length == types.length &&
    (types.zip r.values).all fun p => valMatches p.1 p.2

end Golap

namespace Golap

/-! ## Claim C3: at most one buffered row per run -/

/-- The heap is empty only for an empty item list. -/
theorem extractMin_eq_none (less : Row → Row → Bool) :
    ∀ l : List (Row × ℕ), extractMin less l = none ↔ l = [] := by
  intro l
  cases l with
  | nil => simp [extractMin]
  | cons x xs =>
    simp only [extractMin]
    constructor
    · intro h
      cases hrec : extractMin less xs with
      | none => rw [hrec] at h; simp at h
      | some p =>
        rw [hrec] at h
        rcases p with ⟨m, rest⟩
        by_cases hc : less m.1 x.1 <;> simp [hc] at h
    · intro h; simp at h

/-- Popping returns a permutation: the removed item plus the remainder. -/
theorem extractMin_perm (less : Row → Row → Bool) :
    ∀ (l : List (Row × ℕ)) (m : Row × ℕ) (rest : List (Row × ℕ)),
      extractMin less l = some (m, rest) → l.Perm (m :: rest) := by
  intro l
  induction l with
  | nil => intro m rest h; simp [extractMin] at h
  | cons x xs ih =>
    intro m rest h
    simp only [extractMin] at h
    cases hrec : extractMin less xs with
    | none =>
      rw [hrec] at h
      rw [(extractMin_eq_none less xs).1 hrec]
      simp only [Option.some.injEq, Prod.mk.injEq] at h
      rw [← h.1, ← h.2]
    | some p =>
      rcases p with ⟨m', rest'⟩
      simp only [hrec] at h
      by_cases hc : less m'.1 x.1
      · rw [if_pos hc] at h
        simp only [Option.some.injEq, Prod.mk.injEq] at h
        obtain ⟨rfl, rfl⟩ := h
        exact ((ih m' rest' hrec).cons x).trans (List.Perm.swap m' x rest')
      · rw [if_neg hc] at h
        simp only [Option.some.injEq, Prod.mk.injEq] at h
        obtain ⟨rfl, rfl⟩ := h
        exact List.Perm.refl _

/-- The distinctness state for claim C3: heap indices are pairwise distinct
and in range of the (fixed-length) run table. -/
def NDInv (st : MergeState) : Prop :=
  (st.heap.map Prod.snd).Nodup ∧ ∀ p ∈ st.heap, p.2 < st.runs.length

/-- Setup pushes at most one row per run: the initial heap tags are the
distinct indices of the non-empty runs. -/
theorem setup_heap_tags (runs : List (List Row)) :
    ∀ n : ℕ,
      (((runs.enumFrom n).filterMap fun p =>
        p.2.head?.map fun r => (r, p.1)).map Prod.snd).Nodup ∧
      ∀ q ∈ (runs.enumFrom n).filterMap fun p =>
          p.2.head?.map fun r => (r, p.1),
        n ≤ q.2 ∧ q.2 < n + runs.length := by
  induction runs with
  | nil => intro n; simp
  | cons run rest ih =>
    intro n
    simp only [List.enumFrom_cons, List.filterMap_cons]
    cases hh : run.head? with
    | none =>
      refine ⟨(ih (n + 1)).1, ?_⟩
      intro q hq
      have := (ih (n + 1)).2 q hq
      simp only [List.length_cons]
      omega
    | some h =>
      simp only [Option.map_some', List.map_cons, List.nodup_cons]
      refine ⟨⟨?_, (ih (n + 1)).1⟩, ?_⟩
      · intro hmem
        simp only [List.mem_map] at hmem
        obtain ⟨q, hq, hq2⟩ := hmem
        have := (ih (n + 1)).2 q hq
        omega
      · intro q hq
        simp only [List.length_cons]
        rcases List.mem_cons.1 hq with rfl | hq'
        · exact ⟨Nat.le_refl n, by omega⟩
        · have := (ih (n + 1)).2 q hq'
          omega

theorem setupMerge_NDInv (runs : List (List Row)) :
    NDInv (setupMerge runs) ∧ (setupMerge runs).runs.length = runs.length := by
  have h := setup_heap_tags runs 0
  refine ⟨⟨?_, ?_⟩, by simp [setupMerge]⟩
  · exact h.1
  · intro p hp
    have := h.2 p hp
    simp only [setupMerge, List.length_map]
    omega

/-- One merge step pops one buffered row and pushes at most one, from the
same run: distinctness and the run count are preserved. -/
theorem mergeNext_NDInv (less : Row → Row → Bool) (st : MergeState)
    (hnd : NDInv st) (r : Row) (st' : MergeState)
    (h : mergeNext less st = some (r, st')) :
    NDInv st' ∧ st'.runs.length = st.runs.length := by
  unfold mergeNext at h
  cases hx : extractMin less st.heap with
  | none => rw [hx] at h; simp at h
  | some p =>
    rcases p with ⟨⟨r', j⟩, heap'⟩
    rw [hx] at h
    have hperm := extractMin_perm less st.heap (r', j) heap' hx
    have hpermsnd : (st.heap.map Prod.snd).Perm (j :: heap'.map Prod.snd) :=
      by simpa using hperm.map Prod.snd
    have hnodup' : (j :: heap'.map Prod.snd).Nodup := hpermsnd.nodup hnd.1
    have hmem_heap : ∀ p ∈ heap', p ∈ st.heap := by
      intro p hp
      exact hperm.symm.subset (List.mem_cons_of_mem _ hp)
    have hj_mem : (r', j) ∈ st.heap :=
      hperm.symm.subset (List.mem_cons_self _ _)
    cases hrun : st.runs.get? j with
    | some run =>
      cases run with
      | nil =>
        simp only [hrun] at h
        simp only [Option.some.injEq, Prod.mk.injEq] at h
        obtain ⟨rfl, rfl⟩ := h
        exact ⟨⟨hnodup'.of_cons, fun p hp => hnd.2 p (hmem_heap p hp)⟩, rfl⟩
      | cons x rest =>
        simp only [hrun] at h
        simp only [Option.some.injEq, Prod.mk.injEq] at h
        obtain ⟨rfl, rfl⟩ := h
        refine ⟨⟨by simpa using hnodup', ?_⟩, by simp⟩
        intro p hp
        simp only [List.length_set]
        rcases List.mem_cons.1 hp with rfl | hp'
        · exact hnd.2 (r', j) hj_mem
        · exact hnd.2 p (hmem_heap p hp')
    | none =>
      simp only [hrun] at h
      simp only [Option.some.injEq, Prod.mk.injEq] at h
      obtain ⟨rfl, rfl⟩ := h
      exact ⟨⟨hnodup'.of_cons, fun p hp => hnd.2 p (hmem_heap p hp)⟩, rfl⟩

/-- Distinctness survives any number of merge steps. -/
theorem mergeSteps_NDInv (less : Row → Row → Bool) :
    ∀ (n : ℕ) (st : MergeState), NDInv st →
      NDInv (mergeSteps less n st) ∧
        (mergeSteps less n st).runs.length = st.runs.length := by
  intro n
  induction n with
  | zero => intro st h; exact ⟨h, rfl⟩
  | succ n ih =>
    intro st h
    simp only [mergeSteps]
    cases hx : mergeNext less st with
    | none => exact ⟨h, rfl⟩
    | some p =>
      rcases p with ⟨r, st'⟩
      obtain ⟨h', hlen⟩ := mergeNext_NDInv less st h r st' hx
      obtain ⟨h'', hlen'⟩ := ih st' h'
      exact ⟨h'', hlen'.trans hlen⟩

/-- Distinct naturals below `K` number at most `K`. -/
theorem nodup_lt_length_le (l : List ℕ) (K : ℕ) (hnd : l.Nodup)
    (hlt : ∀ e ∈ l, e < K) : l.length ≤ K := by
  have hcard : l.toFinset.card = l.length := List.toFinset_card_of_nodup hnd
  have hsub : l.toFinset ⊆ Finset.range K := by
    intro e he
    exact Finset.mem_range.2 (hlt e (List.mem_toFinset.1 he))
  calc l.length = l.toFinset.card := hcard.symm
    _ ≤ (Finset.range K).card := Finset.card_le_card hsub
    _ = K := Finset.card_range K

/-- **C3** (confirmed). After setup and after every completed merge step
(`Next()` call), the merge heap holds at most one buffered row per
temporary run file — its run tags are pairwise distinct — and so the number
of heap entries never exceeds the number of runs. -/
theorem mergeHeap_one_row_per_run (desc : Bool) (columnIndex : ℤ)
    (runs : List (List Row)) (n : ℕ) :
    ((mergeSteps (sortLess desc columnIndex) n
        (setupMerge runs)).heap.map Prod.snd).Nodup ∧
      (mergeSteps (sortLess desc columnIndex) n
        (setupMerge runs)).heap.length ≤ runs.length := by
  obtain ⟨hnd0, hlen0⟩ := setupMerge_NDInv runs
  obtain ⟨⟨hnd, hbound⟩, hlen⟩ :=
    mergeSteps_NDInv (sortLess desc columnIndex) n (setupMerge runs) hnd0
  refine ⟨hnd, ?_⟩
  have : (mergeSteps (sortLess desc columnIndex) n
      (setupMerge runs)).heap.length =
      ((mergeSteps (sortLess desc columnIndex) n
        (setupMerge runs)).heap.map Prod.snd).length := by simp
  rw [this]
  apply nodup_lt_length_le _ _ hnd
  intro e he
  simp only [List.mem_map] at he
  obtain ⟨p, hp, rfl⟩ := he
  have := hbound p hp
  omega

end Golap

namespace Golap

/-! ### The sort comparator is a total preorder on well-typed rows -/

theorem cmpChars_self : ∀ l : List Char, cmpChars l l = 0 := by
  intro l
  induction l with
  | nil => rfl
  | cons a l ih => simp [cmpChars, ih]

theorem cmpChars_flip : ∀ a b : List Char, cmpChars a b = -cmpChars b a := by
  intro a
  induction a with
  | nil => intro b; cases b <;> simp [cmpChars]
  | cons x xs ih =>
    intro b
    cases b with
    | nil => simp [cmpChars]
    | cons y ys =>
      simp only [cmpChars]
      rcases lt_trichotomy x y with h | h | h
      · rw [if_pos h, if_neg (lt_asymm h), if_pos h]
      · subst h
        rw [if_neg (lt_irrefl x), if_neg (lt_irrefl x), if_neg (lt_irrefl x),
          if_neg (lt_irrefl x)]
        exact ih ys
      · rw [if_neg (lt_asymm h), if_pos h, if_pos h]
        decide

theorem cmpChars_eq_zero_iff : ∀ a b : List Char, cmpChars a b = 0 ↔ a = b := by
  intro a
  induction a with
  | nil => intro b; cases b <;> simp [cmpChars]
  | cons x xs ih =>
    intro b
    cases b with
    | nil => simp [cmpChars]
    | cons y ys =>
      simp only [cmpChars]
      rcases lt_trichotomy x y with h | h | h
      · rw [if_pos h]
        simp [ne_of_lt h]
      · subst h
        rw [if_neg (lt_irrefl x), if_neg (lt_irrefl x)]
        simp [ih ys]
      · rw [if_neg (lt_asymm h), if_pos h]
        simp [ne_of_gt h]

theorem cmpChars_neg_trans :
    ∀ a b c : List Char, cmpChars a b < 0 → cmpChars b c < 0 →
      cmpChars a c < 0 := by
  intro a
  induction a with
  | nil =>
    intro b c hab hbc
    cases b with
    | nil => exact hbc
    | cons y ys =>
      cases c with
      | nil => simp [cmpChars] at hbc
      | cons z zs => simp [cmpChars]
  | cons x xs ih =>
    intro b c hab hbc
    cases b with
    | nil => simp [cmpChars] at hab
    | cons y ys =>
      cases c with
      | nil => simp [cmpChars] at hbc
      | cons z zs =>
        simp only [cmpChars] at hab hbc ⊢
        rcases lt_trichotomy x y with hxy | hxy | hxy
        · rcases lt_trichotomy y z with hyz | hyz | hyz
          · rw [if_pos (lt_trans hxy hyz)]; omega
          · subst hyz; rw [if_pos hxy]; omega
          · rw [if_neg (lt_asymm hyz), if_pos hyz] at hbc; omega
        · subst hxy
          rcases lt_trichotomy x z with hxz | hxz | hxz
          · rw [if_pos hxz]; omega
          · subst hxz
            rw [if_neg (lt_irrefl x), if_neg (lt_irrefl x)] at hab hbc ⊢
            exact ih ys zs hab hbc
          · rw [if_neg (lt_asymm hxz), if_pos hxz] at hbc; omega
        · rw [if_neg (lt_asymm hxy), if_pos hxy] at hab; omega

theorem cmpChars_nonpos_trans (a b c : List Char) (hab : cmpChars a b ≤ 0)
    (hbc : cmpChars b c ≤ 0) : cmpChars a c ≤ 0 := by
  rcases lt_or_eq_of_le hab with hab' | hab'
  · rcases lt_or_eq_of_le hbc with hbc' | hbc'
    · exact le_of_lt (cmpChars_neg_trans a b c hab' hbc')
    · rw [(cmpChars_eq_zero_iff b c).1 hbc'] at hab
      exact hab
  · rw [(cmpChars_eq_zero_iff a b).1 hab']
    exact hbc

theorem cmpVal_self : ∀ v : Value, cmpVal v v = 0 := by
  intro v
  cases v with
  | vInt z => simp [cmpVal]
  | vFloat q => simp [cmpVal]
  | vStr s => simp [cmpVal, cmpChars_self]
  | vNull => rfl

theorem cmpVal_flip : ∀ a b : Value, cmpVal a b = -cmpVal b a := by
  intro a b
  cases a with
  | vInt av =>
    cases b with
    | vInt bv =>
      simp only [cmpVal]
      split_ifs <;> omega
    | vFloat _ => rfl
    | vStr _ => rfl
    | vNull => rfl
  | vFloat av =>
    cases b with
    | vFloat bv =>
      simp only [cmpVal]
      split_ifs <;> first | omega | linarith
    | vInt _ => rfl
    | vStr _ => rfl
    | vNull => rfl
  | vStr av =>
    cases b with
    | vStr bv => simpa [cmpVal] using cmpChars_flip av.data bv.data
    | vInt _ => rfl
    | vFloat _ => rfl
    | vNull => rfl
  | vNull => cases b <;> rfl

theorem cmpVal_nonpos_trans (t : DataType) (a b c : Value)
    (hta : valMatches t a = true) (htb : valMatches t b = true)
    (htc : valMatches t c = true) (hab : cmpVal a b ≤ 0)
    (hbc : cmpVal b c ≤ 0) : cmpVal a c ≤ 0 := by
  cases t with
  | int =>
    cases a with
    | vInt av =>
      cases b with
      | vInt bv =>
        cases c with
        | vInt cv =>
          simp only [cmpVal] at hab hbc ⊢
          split_ifs at hab hbc ⊢ <;> first | omega | linarith
        | vFloat _ => simp [valMatches] at htc
        | vStr _ => simp [valMatches] at htc
        | vNull => simp [valMatches] at htc
      | vFloat _ => simp [valMatches] at htb
      | vStr _ => simp [valMatches] at htb
      | vNull => simp [valMatches] at htb
    | vFloat _ => simp [valMatches] at hta
    | vStr _ => simp [valMatches] at hta
    | vNull => simp [valMatches] at hta
  | float =>
    cases a with
    | vFloat av =>
      cases b with
      | vFloat bv =>
        cases c with
        | vFloat cv =>
          simp only [cmpVal] at hab hbc ⊢
          split_ifs at hab hbc ⊢ <;> first | omega | linarith
        | vInt _ => simp [valMatches] at htc
        | vStr _ => simp [valMatches] at htc
        | vNull => simp [valMatches] at htc
      | vInt _ => simp [valMatches] at htb
      | vStr _ => simp [valMatches] at htb
      | vNull => simp [valMatches] at htb
    | vInt _ => simp [valMatches] at hta
    | vStr _ => simp [valMatches] at hta
    | vNull => simp [valMatches] at hta
  | string =>
    cases a with
    | vStr av =>
      cases b with
      | vStr bv =>
        cases c with
        | vStr cv =>
          simp only [cmpVal] at hab hbc ⊢
          exact cmpChars_nonpos_trans _ _ _ hab hbc
        | vInt _ => simp [valMatches] at htc
        | vFloat _ => simp [valMatches] at htc
        | vNull => simp [valMatches] at htc
      | vInt _ => simp [valMatches] at htb
      | vFloat _ => simp [valMatches] at htb
      | vNull => simp [valMatches] at htb
    | vInt _ => simp [valMatches] at hta
    | vFloat _ => simp [valMatches] at hta
    | vNull => simp [valMatches] at hta

end Golap

namespace Golap

theorem get?_some_of_lt {α : Type} (l : List α) (n : ℕ) (h : n < l.length) :
    ∃ v, l.get? n = some v := by
  cases hv : l.get? n with
  | none =>
    have := List.get?_eq_none.1 hv
    omega
  | some v => exact ⟨v, rfl⟩

theorem wtRow_length (types : List DataType) (r : Row)
    (h : wtRow types r = true) : r.values.length = types.length := by
  unfold wtRow at h
  simp only [Bool.and_eq_true, beq_iff_eq] at h
  exact h.1

theorem wtRow_get (types : List DataType) (r : Row)
    (h : wtRow types r = true) :
    ∀ (i : ℕ) (t : DataType) (v : Value), types.get? i = some t →
      r.values.get? i = some v → valMatches t v = true := by
  unfold wtRow at h
  simp only [Bool.and_eq_true, beq_iff_eq, List.all_eq_true] at h
  intro i t v ht hv
  apply h.2 (t, v)
  have hzip : ∀ (l₁ : List DataType) (l₂ : List Value) (j : ℕ)
      (x : DataType) (y : Value), l₁.get? j = some x → l₂.get? j = some y →
      (l₁.zip l₂).get? j = some (x, y) := by
    intro l₁
    induction l₁ with
    | nil => intro l₂ j x y hx; simp at hx
    | cons a l₁ ih =>
      intro l₂ j x y hx hy
      cases l₂ with
      | nil => simp at hy
      | cons b l₂ =>
        cases j with
        | zero =>
          simp only [List.get?_cons_zero, Option.some.injEq] at hx hy
          simp [List.zip_cons_cons, hx, hy]
        | succ j =>
          simp only [List.get?_cons_succ] at hx hy
          simpa [List.zip_cons_cons] using ih l₂ j x y hx hy
  exact List.get?_mem (hzip types r.values i t v ht hv)

theorem compareRows_self (ci : ℤ) (a : Row) : compareRows ci a a = 0 := by
  unfold compareRows
  split
  · rfl
  · cases h : a.values.get? ci.toNat with
    | none => rfl
    | some v => simp [cmpVal_self]

theorem compareRows_flip (ci : ℤ) (a b : Row) :
    compareRows ci a b = -compareRows ci b a := by
  unfold compareRows
  by_cases hg : ci < 0 ∨ (a.values.length : ℤ) ≤ ci ∨
      (b.values.length : ℤ) ≤ ci
  · rw [if_pos hg, if_pos (by tauto)]
    decide
  · rw [if_neg hg, if_neg (by tauto)]
    push_neg at hg
    obtain ⟨hg0, hga, hgb⟩ := hg
    obtain ⟨va, hva⟩ := get?_some_of_lt a.values ci.toNat (by omega)
    obtain ⟨vb, hvb⟩ := get?_some_of_lt b.values ci.toNat (by omega)
    simp only [hva, hvb]
    exact cmpVal_flip va vb

theorem compareRows_nonpos_trans (types : List DataType) (ci : ℤ)
    (a b c : Row) (hwa : wtRow types a = true) (hwb : wtRow types b = true)
    (hwc : wtRow types c = true) (hab : compareRows ci a b ≤ 0)
    (hbc : compareRows ci b c ≤ 0) : compareRows ci a c ≤ 0 := by
  have hla := wtRow_length types a hwa
  have hlb := wtRow_length types b hwb
  have hlc := wtRow_length types c hwc
  unfold compareRows at hab hbc ⊢
  by_cases hg : ci < 0 ∨ (types.length : ℤ) ≤ ci
  · rw [if_pos (by rw [hla, hlc]; tauto)]
  · push_neg at hg
    obtain ⟨hg0, hglen⟩ := hg
    rw [if_neg (by rw [hla, hlb]; omega)] at hab
    rw [if_neg (by rw [hlb, hlc]; omega)] at hbc
    rw [if_neg (by rw [hla, hlc]; omega)]
    obtain ⟨va, hva⟩ := get?_some_of_lt a.values ci.toNat (by omega)
    obtain ⟨vb, hvb⟩ := get?_some_of_lt b.values ci.toNat (by omega)
    obtain ⟨vc, hvc⟩ := get?_some_of_lt c.values ci.toNat (by omega)
    obtain ⟨t, ht⟩ := get?_some_of_lt types ci.toNat (by omega)
    simp only [hva, hvb] at hab
    simp only [hvb, hvc] at hbc
    simp only [hva, hvc]
    exact cmpVal_nonpos_trans t va vb vc
      (wtRow_get types a hwa ci.toNat t va ht hva)
      (wtRow_get types b hwb ci.toNat t vb ht hvb)
      (wtRow_get types c hwc ci.toNat t vc ht hvc)
      hab hbc

theorem keyLe_refl (desc : Bool) (ci : ℤ) (a : Row) : keyLe desc ci a a := by
  unfold keyLe sortLess
  cases desc <;> simp [compareRows_self]

theorem sortLess_asymm (desc : Bool) (ci : ℤ) (a b : Row)
    (h : sortLess desc ci a b = true) : sortLess desc ci b a = false := by
  unfold sortLess at h ⊢
  have hf := compareRows_flip ci b a
  cases desc with
  | false =>
    simp only [Bool.false_eq_true, if_false, decide_eq_true_eq] at h
    simp only [Bool.false_eq_true, if_false, decide_eq_false_iff_not, not_lt]
    omega
  | true =>
    simp only [if_true, decide_eq_true_eq, gt_iff_lt] at h
    simp only [if_true, decide_eq_false_iff_not, gt_iff_lt, not_lt]
    omega

theorem keyLe_total (desc : Bool) (ci : ℤ) (a b : Row) :
    keyLe desc ci a b ∨ keyLe desc ci b a := by
  unfold keyLe
  cases hba : sortLess desc ci b a with
  | false => exact Or.inl rfl
  | true => exact Or.inr (sortLess_asymm desc ci b a hba)

theorem keyLe_of_sortLess (desc : Bool) (ci : ℤ) (a b : Row)
    (h : sortLess desc ci a b = true) : keyLe desc ci a b :=
  sortLess_asymm desc ci a b h

theorem keyLe_of_not_sortLess (desc : Bool) (ci : ℤ) (a b : Row)
    (h : sortLess desc ci a b = false) : keyLe desc ci b a := h

theorem keyLe_trans (types : List DataType) (desc : Bool) (ci : ℤ)
    (a b c : Row) (hwa : wtRow types a = true) (hwb : wtRow types b = true)
    (hwc : wtRow types c = true) (hab : keyLe desc ci a b)
    (hbc : keyLe desc ci b c) : keyLe desc ci a c := by
  unfold keyLe sortLess at hab hbc ⊢
  have hfab := compareRows_flip ci b a
  have hfbc := compareRows_flip ci c b
  have hfac := compareRows_flip ci c a
  cases desc with
  | false =>
    simp only [Bool.false_eq_true, if_false, decide_eq_false_iff_not,
      not_lt] at hab hbc ⊢
    have h1 : compareRows ci a b ≤ 0 := by omega
    have h2 : compareRows ci b c ≤ 0 := by omega
    have := compareRows_nonpos_trans types ci a b c hwa hwb hwc h1 h2
    omega
  | true =>
    simp only [if_true, decide_eq_false_iff_not, gt_iff_lt,
      not_lt] at hab hbc ⊢
    exact compareRows_nonpos_trans types ci c b a hwc hwb hwa hbc hab

end Golap

namespace Golap

/-! ### The in-memory chunk sort: a sorted permutation -/

theorem insertLess_perm (less : Row → Row → Bool) (a : Row) :
    ∀ l : List Row, (insertLess less a l).Perm (a :: l) := by
  intro l
  induction l with
  | nil => exact List.Perm.refl _
  | cons b l ih =>
    simp only [insertLess]
    by_cases hc : less a b
    · rw [if_pos hc]
    · rw [if_neg hc]
      exact (ih.cons b).trans (List.Perm.swap a b l)

theorem sortRows_perm (less : Row → Row → Bool) :
    ∀ l : List Row, (sortRows less l).Perm l := by
  intro l
  induction l with
  | nil => exact List.Perm.refl _
  | cons a l ih =>
    show (insertLess less a (sortRows less l)).Perm (a :: l)
    exact (insertLess_perm less a (sortRows less l)).trans (ih.cons a)

theorem insertLess_sorted (types : List DataType) (desc : Bool) (ci : ℤ)
    (a : Row) (hwa : wtRow types a = true) :
    ∀ l : List Row, (∀ x ∈ l, wtRow types x = true) →
      List.Sorted (keyLe desc ci) l →
      List.Sorted (keyLe desc ci) (insertLess (sortLess desc ci) a l) := by
  intro l
  induction l with
  | nil => intro _ _; simp [insertLess]
  | cons b l ih =>
    intro hwl hsort
    rw [List.sorted_cons] at hsort
    simp only [insertLess]
    by_cases hc : sortLess desc ci a b
    · rw [if_pos hc]
      rw [List.sorted_cons]
      refine ⟨?_, List.sorted_cons.2 hsort⟩
      intro y hy
      rcases List.mem_cons.1 hy with rfl | hy'
      · exact keyLe_of_sortLess desc ci a y hc
      · exact keyLe_trans types desc ci a b y hwa
          (hwl b (List.mem_cons_self b l))
          (hwl y (List.mem_cons_of_mem b hy'))
          (keyLe_of_sortLess desc ci a b hc) (hsort.1 y hy')
    · rw [if_neg hc]
      rw [List.sorted_cons]
      constructor
      · intro y hy
        have hy' := (insertLess_perm (sortLess desc ci) a l).subset hy
        rcases List.mem_cons.1 hy' with rfl | hy''
        · exact keyLe_of_not_sortLess desc ci y b (by simpa using hc)
        · exact hsort.1 y hy''
      · exact ih (fun x hx => hwl x (List.mem_cons_of_mem b hx)) hsort.2

theorem sortRows_sorted (types : List DataType) (desc : Bool) (ci : ℤ) :
    ∀ l : List Row, (∀ x ∈ l, wtRow types x = true) →
      List.Sorted (keyLe desc ci) (sortRows (sortLess desc ci) l) := by
  intro l
  induction l with
  | nil => intro _; simp [sortRows]
  | cons a l ih =>
    intro hwl
    show List.Sorted _ (insertLess (sortLess desc ci) a (sortRows _ l))
    apply insertLess_sorted types desc ci a (hwl a (List.mem_cons_self a l))
    · intro x hx
      exact hwl x (List.mem_cons_of_mem a
        ((sortRows_perm (sortLess desc ci) l).subset hx))
    · exact ih fun x hx => hwl x (List.mem_cons_of_mem a hx)

/-! ### Serialization round-trips on well-typed rows -/

theorem roundtripRow_id (types : List DataType) (r : Row)
    (h : wtRow types r = true) : roundtripRow types r = r := by
  unfold wtRow at h
  simp only [Bool.and_eq_true, beq_iff_eq, List.all_eq_true] at h
  obtain ⟨hlen, hmatch⟩ := h
  unfold roundtripRow rowToRecord
  rcases r with ⟨values⟩
  simp only at hlen hmatch ⊢
  congr 1
  -- ⊢ recordToRowVals (values.map valToCell) types = values
  induction values generalizing types with
  | nil =>
    cases types with
    | nil => rfl
    | cons t ts => simp at hlen
  | cons v vs ih =>
    cases types with
    | nil => simp at hlen
    | cons t ts =>
      simp only [List.map_cons, recordToRowVals]
      have hv : valMatches t v = true := by
        apply hmatch (t, v)
        simp [List.zip_cons_cons]
      have hcell : parseCell (valToCell v) t = v := by
        cases t with
        | int =>
          cases v with
          | vInt z => rfl
          | vFloat q => simp [valMatches] at hv
          | vStr s => simp [valMatches] at hv
          | vNull => simp [valMatches] at hv
        | float =>
          cases v with
          | vFloat q => rfl
          | vInt z => simp [valMatches] at hv
          | vStr s => simp [valMatches] at hv
          | vNull => simp [valMatches] at hv
        | string =>
          cases v with
          | vStr s => rfl
          | vInt z => simp [valMatches] at hv
          | vFloat q => simp [valMatches] at hv
          | vNull => simp [valMatches] at hv
      rw [hcell]
      congr 1
      apply ih ts
      · simpa using hlen
      · intro p hp
        apply hmatch p
        simp [List.zip_cons_cons, hp]

/-! ### Chunking flushes every row exactly once -/

theorem chunksAux_join (chunkSize : ℕ) :
    ∀ (rows chunk : List Row),
      (chunksAux chunkSize rows chunk).join = chunk ++ rows := by
  intro rows
  induction rows with
  | nil =>
    intro chunk
    cases hc : chunk.isEmpty with
    | true =>
      simp only [chunksAux, hc, if_true]
      simp [List.isEmpty_iff.1 hc]
    | false => simp [chunksAux, hc]
  | cons row rest ih =>
    intro chunk
    simp only [chunksAux]
    by_cases hf : chunkSize ≤ (chunk ++ [row]).length
    · rw [if_pos hf]
      simp [ih []]
    · rw [if_neg hf]
      rw [ih (chunk ++ [row])]
      simp

theorem chunksOf_join (chunkSize : ℕ) (rows : List Row) :
    (chunksOf chunkSize rows).join = rows := by
  unfold chunksOf
  rw [chunksAux_join]
  rfl

end Golap

namespace Golap

/-! ### Bookkeeping lemmas for the merge state -/

theorem get?_set_self {α : Type} (l : List α) (i : ℕ) (a : α)
    (h : i < l.length) : (l.set i a).get? i = some a := by
  induction l generalizing i with
  | nil => simp at h
  | cons b l ih =>
    cases i with
    | zero => rfl
    | succ j => exact ih j (by simpa using h)

theorem get?_set_other {α : Type} (l : List α) (i j : ℕ) (a : α)
    (h : i ≠ j) : (l.set i a).get? j = l.get? j := by
  induction l generalizing i j with
  | nil => simp
  | cons b l ih =>
    cases i with
    | zero =>
      cases j with
      | zero => exact absurd rfl h
      | succ j' => rfl
    | succ i' =>
      cases j with
      | zero => rfl
      | succ j' => exact ih i' j' fun hc => h (by rw [hc])

theorem mem_join_get? {α : Type} (l : List (List α)) (y : α) :
    y ∈ l.join ↔ ∃ (j : ℕ) (run : List α), l.get? j = some run ∧ y ∈ run := by
  rw [List.mem_join]
  constructor
  · rintro ⟨run, hrun, hy⟩
    obtain ⟨j, hj⟩ := List.mem_iff_get?.1 hrun
    exact ⟨j, run, hj, hy⟩
  · rintro ⟨j, run, hj, hy⟩
    exact ⟨run, List.get?_mem hj, hy⟩

theorem join_set_perm (l : List (List Row)) (j : ℕ) (x : Row)
    (rest : List Row) (h : l.get? j = some (x :: rest)) :
    l.join.Perm (x :: (l.set j rest).join) := by
  induction l generalizing j with
  | nil => simp at h
  | cons r l ih =>
    cases j with
    | zero =>
      simp only [List.get?_cons_zero, Option.some.injEq] at h
      subst h
      simp [List.join_cons]
    | succ j' =>
      simp only [List.get?_cons_succ] at h
      simp only [List.set_cons_succ, List.join_cons]
      exact ((ih j' h).append_left r).trans (List.perm_middle)

theorem join_set_subset (l : List (List Row)) (j : ℕ) (x : Row)
    (rest : List Row) (h : l.get? j = some (x :: rest)) :
    ∀ y ∈ (l.set j rest).join, y ∈ l.join := by
  intro y hy
  obtain ⟨j', run', hj', hy'⟩ := (mem_join_get? _ y).1 hy
  by_cases hjj : j = j'
  · subst hjj
    have hlt : j < l.length := by
      cases hlt : l.get? j with
      | none => rw [hlt] at h; simp at h
      | some _ =>
        have := List.get?_eq_some.1 hlt
        exact this.choose
    rw [get?_set_self l j rest hlt] at hj'
    cases hj'
    exact (mem_join_get? _ y).2 ⟨j, x :: rest, h, List.mem_cons_of_mem x hy'⟩
  · rw [get?_set_other l j j' rest hjj] at hj'
    exact (mem_join_get? _ y).2 ⟨j', run', hj', hy'⟩

theorem sum_map_length_set (l : List (List Row)) (j : ℕ) (x : Row)
    (rest : List Row) (h : l.get? j = some (x :: rest)) :
    ((l.set j rest).map List.length).sum + 1 = (l.map List.length).sum := by
  induction l generalizing j with
  | nil => simp at h
  | cons r l ih =>
    cases j with
    | zero =>
      simp only [List.get?_cons_zero, Option.some.injEq] at h
      subst h
      simp only [List.set_cons_zero, List.map_cons, List.sum_cons,
        List.length_cons]
      omega
    | succ j' =>
      simp only [List.get?_cons_succ] at h
      simp only [List.set_cons_succ, List.map_cons, List.sum_cons]
      have := ih j' h
      omega

theorem mergeNext_size (less : Row → Row → Bool) (st : MergeState) (r : Row)
    (st' : MergeState) (h : mergeNext less st = some (r, st')) :
    heapSize st' < heapSize st := by
  unfold mergeNext at h
  cases hx : extractMin less st.heap with
  | none => rw [hx] at h; simp at h
  | some p =>
    rcases p with ⟨⟨r0, j⟩, heap'⟩
    simp only [hx] at h
    have hlen : st.heap.length = heap'.length + 1 := by
      have := (extractMin_perm less st.heap (r0, j) heap' hx).length_eq
      simpa using this
    cases hrun : st.runs.get? j with
    | some run =>
      cases run with
      | nil =>
        simp only [hrun, Option.some.injEq, Prod.mk.injEq] at h
        obtain ⟨rfl, rfl⟩ := h
        unfold heapSize
        dsimp only
        omega
      | cons x rest =>
        simp only [hrun, Option.some.injEq, Prod.mk.injEq] at h
        obtain ⟨rfl, rfl⟩ := h
        unfold heapSize
        dsimp only
        have := sum_map_length_set st.runs j x rest hrun
        simp only [List.length_cons]
        omega
    | none =>
      simp only [hrun, Option.some.injEq, Prod.mk.injEq] at h
      obtain ⟨rfl, rfl⟩ := h
      unfold heapSize
      dsimp only
      omega

/-- The full correctness invariant of the merge state: every buffered row
bounds its own run's remainder; every run remainder is sorted; every
non-empty run has a buffered row; everything pending is well-typed. -/
def MergeInv (types : List DataType) (desc : Bool) (ci : ℤ)
    (st : MergeState) : Prop :=
  (∀ p ∈ st.heap, ∃ run, st.runs.get? p.2 = some run ∧
    ∀ x ∈ run, keyLe desc ci p.1 x) ∧
  (∀ (j : ℕ) (run : List Row), st.runs.get? j = some run →
    run.Pairwise (keyLe desc ci)) ∧
  (∀ (j : ℕ) (run : List Row), st.runs.get? j = some run → run ≠ [] →
    ∃ p ∈ st.heap, p.2 = j) ∧
  (∀ y ∈ mergeContent st, wtRow types y = true)

theorem heap_mem_content (st : MergeState) (p : Row × ℕ) (hp : p ∈ st.heap) :
    p.1 ∈ mergeContent st :=
  List.mem_append_left _ (List.mem_map_of_mem Prod.fst hp)

theorem join_mem_content (st : MergeState) (y : Row) (hy : y ∈ st.runs.join) :
    y ∈ mergeContent st :=
  List.mem_append_right _ hy

/-- A popped row bounds everything still unread in the runs. -/
theorem popped_le_join (types : List DataType) (desc : Bool) (ci : ℤ)
    (st : MergeState) (hinv : MergeInv types desc ci st) (r0 : Row)
    (hmin : ∀ p ∈ st.heap, keyLe desc ci r0 p.1)
    (hr0 : wtRow types r0 = true) :
    ∀ y ∈ st.runs.join, keyLe desc ci r0 y := by
  intro y hy
  obtain ⟨j, run, hj, hyrun⟩ := (mem_join_get? _ y).1 hy
  obtain ⟨p, hp, hpj⟩ := hinv.2.2.1 j run hj (by rintro rfl; simp at hyrun)
  obtain ⟨runp, hrunp, hle⟩ := hinv.1 p hp
  rw [hpj, hj] at hrunp
  cases hrunp
  exact keyLe_trans types desc ci r0 p.1 y hr0
    (hinv.2.2.2 p.1 (heap_mem_content st p hp))
    (hinv.2.2.2 y (join_mem_content st y hy))
    (hmin p hp) (hle y hyrun)

/-- Popping from the heap returns a global minimum of the buffered rows. -/
theorem extractMin_min (types : List DataType) (desc : Bool) (ci : ℤ) :
    ∀ (l : List (Row × ℕ)), (∀ p ∈ l, wtRow types p.1 = true) →
      ∀ (m : Row × ℕ) (rest : List (Row × ℕ)),
        extractMin (sortLess desc ci) l = some (m, rest) →
        ∀ p ∈ l, keyLe desc ci m.1 p.1 := by
  intro l
  induction l with
  | nil => intro _ m rest h; simp [extractMin] at h
  | cons x xs ih =>
    intro hw m rest h
    simp only [extractMin] at h
    cases hrec : extractMin (sortLess desc ci) xs with
    | none =>
      rw [hrec] at h
      rw [(extractMin_eq_none _ xs).1 hrec]
      simp only [Option.some.injEq, Prod.mk.injEq] at h
      intro p hp
      simp only [List.not_mem_nil, List.mem_cons, or_false] at hp
      subst hp
      rw [← h.1]
      exact keyLe_refl desc ci p.1
    | some q =>
      rcases q with ⟨m', rest'⟩
      simp only [hrec] at h
      have hm'xs : m' ∈ xs :=
        (extractMin_perm _ xs m' rest' hrec).symm.subset
          (List.mem_cons_self m' rest')
      by_cases hc : sortLess desc ci m'.1 x.1
      · rw [if_pos hc] at h
        simp only [Option.some.injEq, Prod.mk.injEq] at h
        obtain ⟨rfl, rfl⟩ := h
        intro p hp
        rcases List.mem_cons.1 hp with rfl | hp'
        · exact keyLe_of_sortLess desc ci m'.1 p.1 hc
        · exact ih (fun q hq => hw q (List.mem_cons_of_mem x hq)) m' rest'
            hrec p hp'
      · rw [if_neg hc] at h
        simp only [Option.some.injEq, Prod.mk.injEq] at h
        obtain ⟨rfl, rfl⟩ := h
        intro p hp
        have hxm' : keyLe desc ci x.1 m'.1 :=
          keyLe_of_not_sortLess desc ci m'.1 x.1 (by simpa using hc)
        rcases List.mem_cons.1 hp with rfl | hp'
        · exact keyLe_refl desc ci p.1
        · exact keyLe_trans types desc ci x.1 m'.1 p.1
            (hw x (List.mem_cons_self x xs))
            (hw m' (List.mem_cons_of_mem x hm'xs))
            (hw p (List.mem_cons_of_mem x hp'))
            hxm'
            (ih (fun q hq => hw q (List.mem_cons_of_mem x hq)) m' rest'
              hrec p hp')

end Golap

namespace Golap

/-- With an empty heap every run is exhausted: nothing is pending. -/
theorem content_nil_of_heap_nil (types : List DataType) (desc : Bool)
    (ci : ℤ) (st : MergeState) (hinv : MergeInv types desc ci st)
    (hh : st.heap = []) : mergeContent st = [] := by
  unfold mergeContent
  rw [hh]
  simp only [List.map_nil, List.nil_append]
  rw [List.eq_nil_iff_forall_not_mem]
  intro y hy
  obtain ⟨j, run, hj, hyrun⟩ := (mem_join_get? _ y).1 hy
  obtain ⟨p, hp, -⟩ := hinv.2.2.1 j run hj (by rintro rfl; simp at hyrun)
  rw [hh] at hp
  simp at hp

/-- One merge step: the invariant is preserved, the emitted row bounds
everything still pending, and the pending multiset loses exactly that
row. -/
theorem mergeNext_step (types : List DataType) (desc : Bool) (ci : ℤ)
    (st : MergeState) (hinv : MergeInv types desc ci st) (r : Row)
    (st' : MergeState)
    (h : mergeNext (sortLess desc ci) st = some (r, st')) :
    MergeInv types desc ci st' ∧
      (∀ y ∈ mergeContent st', keyLe desc ci r y) ∧
      (mergeContent st).Perm (r :: mergeContent st') := by
  obtain ⟨inv1, inv2, inv3, inv4⟩ := hinv
  unfold mergeNext at h
  cases hx : extractMin (sortLess desc ci) st.heap with
  | none => rw [hx] at h; simp at h
  | some q =>
    rcases q with ⟨⟨r0, j⟩, heap'⟩
    simp only [hx] at h
    have hperm := extractMin_perm (sortLess desc ci) st.heap (r0, j) heap' hx
    have hr0mem : (r0, j) ∈ st.heap :=
      hperm.symm.subset (List.mem_cons_self _ _)
    have hheap'sub : ∀ p ∈ heap', p ∈ st.heap := fun p hp =>
      hperm.symm.subset (List.mem_cons_of_mem _ hp)
    have hwheap : ∀ p ∈ st.heap, wtRow types p.1 = true := fun p hp =>
      inv4 p.1 (heap_mem_content st p hp)
    have hmin := extractMin_min types desc ci st.heap hwheap (r0, j) heap' hx
    have hr0wt : wtRow types r0 = true := hwheap (r0, j) hr0mem
    have hjoinle : ∀ y ∈ st.runs.join, keyLe desc ci r0 y :=
      popped_le_join types desc ci st ⟨inv1, inv2, inv3, inv4⟩ r0 hmin hr0wt
    obtain ⟨runj, hrunj, hlerunj⟩ := inv1 (r0, j) hr0mem
    have hpermfst : (st.heap.map Prod.fst).Perm (r0 :: heap'.map Prod.fst) :=
      by simpa using hperm.map Prod.fst
    cases hrun : st.runs.get? j with
    | none => rw [hrun] at hrunj; simp at hrunj
    | some run =>
      rw [hrun] at hrunj
      injection hrunj with hinj
      subst hinj
      cases run with
      | nil =>
        simp only [hrun, Option.some.injEq, Prod.mk.injEq] at h
        obtain ⟨rfl, rfl⟩ := h
        have hcontentperm : (mergeContent st).Perm
            (r0 :: mergeContent { runs := st.runs, heap := heap' }) := by
          unfold mergeContent
          dsimp only
          exact (hpermfst.append_right st.runs.join)
        refine ⟨⟨?_, ?_, ?_, ?_⟩, ?_, hcontentperm⟩
        · intro p hp
          exact inv1 p (hheap'sub p hp)
        · intro j' run' hj'
          exact inv2 j' run' hj'
        · intro j' run' hj' hne
          obtain ⟨p, hp, hpj⟩ := inv3 j' run' hj' hne
          rcases List.mem_cons.1 (hperm.subset hp) with hph | hph
          · exfalso
            rw [hph] at hpj
            dsimp at hpj
            subst hpj
            rw [hj'] at hrun
            cases hrun
            exact hne rfl
          · exact ⟨p, hph, hpj⟩
        · intro y hy
          exact inv4 y (hcontentperm.symm.subset (List.mem_cons_of_mem r0 hy))
        · intro y hy
          unfold mergeContent at hy
          dsimp only at hy
          rcases List.mem_append.1 hy with hy' | hy'
          · obtain ⟨p, hp, rfl⟩ := List.mem_map.1 hy'
            exact hmin p (hheap'sub p hp)
          · exact hjoinle y hy'
      | cons x rest =>
        simp only [hrun, Option.some.injEq, Prod.mk.injEq] at h
        obtain ⟨rfl, rfl⟩ := h
        have hjlt : j < st.runs.length := (List.get?_eq_some.1 hrun).choose
        have hjoinperm := join_set_perm st.runs j x rest hrun
        have hjoinsub := join_set_subset st.runs j x rest hrun
        have hcontentperm : (mergeContent st).Perm
            (r0 :: mergeContent
              { runs := st.runs.set j rest, heap := (x, j) :: heap' }) := by
          unfold mergeContent
          dsimp only
          exact (hpermfst.append_right st.runs.join).trans
            (((hjoinperm.append_left (heap'.map Prod.fst)).trans
              List.perm_middle).cons r0)
        refine ⟨⟨?_, ?_, ?_, ?_⟩, ?_, hcontentperm⟩
        · intro p hp
          rcases List.mem_cons.1 hp with rfl | hp'
          · refine ⟨rest, ?_, ?_⟩
            · dsimp only
              exact get?_set_self st.runs j rest hjlt
            · intro z hz
              exact (List.pairwise_cons.1 (inv2 j (x :: rest) hrun)).1 z hz
          · obtain ⟨runp, hrunp, hlep⟩ := inv1 p (hheap'sub p hp')
            by_cases hpj : p.2 = j
            · rw [hpj] at hrunp ⊢
              rw [hrun] at hrunp
              cases hrunp
              refine ⟨rest, ?_, ?_⟩
              · dsimp only
                exact get?_set_self st.runs j rest hjlt
              · intro z hz
                exact hlep z (List.mem_cons_of_mem x hz)
            · refine ⟨runp, ?_, hlep⟩
              dsimp only
              rw [get?_set_other st.runs j p.2 rest fun hc => hpj hc.symm]
              exact hrunp
        · intro j' run' hj'
          dsimp only at hj'
          by_cases hjj : j = j'
          · subst hjj
            rw [get?_set_self st.runs j rest hjlt] at hj'
            cases hj'
            exact (List.pairwise_cons.1 (inv2 j (x :: rest) hrun)).2
          · rw [get?_set_other st.runs j j' rest hjj] at hj'
            exact inv2 j' run' hj'
        · intro j' run' hj' hne
          dsimp only at hj'
          by_cases hjj : j = j'
          · subst hjj
            exact ⟨(x, j), List.mem_cons_self _ _, rfl⟩
          · rw [get?_set_other st.runs j j' rest hjj] at hj'
            obtain ⟨p, hp, hpj⟩ := inv3 j' run' hj' hne
            rcases List.mem_cons.1 (hperm.subset hp) with hph | hph
            · exfalso
              rw [hph] at hpj
              exact hjj hpj
            · exact ⟨p, List.mem_cons_of_mem _ hph, hpj⟩
        · intro y hy
          exact inv4 y (hcontentperm.symm.subset (List.mem_cons_of_mem r0 hy))
        · intro y hy
          unfold mergeContent at hy
          dsimp only at hy
          rcases List.mem_append.1 hy with hy' | hy'
          · obtain ⟨p, hp, rfl⟩ := List.mem_map.1 hy'
            rcases List.mem_cons.1 hp with rfl | hp'
            · exact hlerunj x (List.mem_cons_self x rest)
            · exact hmin p (hheap'sub p hp')
          · exact hjoinle y (hjoinsub y hy')

end Golap

namespace Golap

/-! ## Claim C1: external merge sort versus in-memory sort -/

/-- Driving the merge with enough fuel under the invariant yields a
sorted permutation of everything pending. -/
theorem mergeOutFuel_spec (types : List DataType) (desc : Bool) (ci : ℤ) :
    ∀ (fuel : ℕ) (st : MergeState), heapSize st ≤ fuel →
      MergeInv types desc ci st →
      (mergeOutFuel (sortLess desc ci) fuel st).Perm (mergeContent st) ∧
        (mergeOutFuel (sortLess desc ci) fuel st).Pairwise
          (keyLe desc ci) := by
  intro fuel
  induction fuel with
  | zero =>
    intro st hsz hinv
    have hh : st.heap = [] := by
      unfold heapSize at hsz
      exact List.length_eq_zero.1 (by omega)
    rw [content_nil_of_heap_nil types desc ci st hinv hh]
    exact ⟨List.Perm.refl _, List.Pairwise.nil⟩
  | succ fuel ih =>
    intro st hsz hinv
    cases hnext : mergeNext (sortLess desc ci) st with
    | none =>
      have hh : st.heap = [] := by
        cases hxe : extractMin (sortLess desc ci) st.heap with
        | none => exact (extractMin_eq_none _ _).1 hxe
        | some p =>
          exfalso
          rcases p with ⟨⟨r0, j⟩, heap'⟩
          unfold mergeNext at hnext
          simp only [hxe] at hnext
          split at hnext <;> exact Option.noConfusion hnext
      rw [content_nil_of_heap_nil types desc ci st hinv hh]
      simp only [mergeOutFuel, hnext]
      exact ⟨List.Perm.refl _, List.Pairwise.nil⟩
    | some p =>
      rcases p with ⟨r, st'⟩
      obtain ⟨hinv', hbound, hperm⟩ :=
        mergeNext_step types desc ci st hinv r st' hnext
      have hsz' : heapSize st' ≤ fuel := by
        have := mergeNext_size (sortLess desc ci) st r st' hnext
        omega
      obtain ⟨ihperm, ihsorted⟩ := ih st' hsz' hinv'
      simp only [mergeOutFuel, hnext]
      refine ⟨(ihperm.cons r).trans hperm.symm, ?_⟩
      exact List.pairwise_cons.2
        ⟨fun y hy => hbound y (ihperm.subset hy), ihsorted⟩

/-- The rows buffered by `setupMerge` are exactly the heads of the
non-empty runs, independently of the enumeration offset. -/
theorem setup_heap_fst :
    ∀ (runs : List (List Row)) (n : ℕ),
      (((runs.enumFrom n).filterMap fun p =>
        p.2.head?.map fun r => (r, p.1)).map Prod.fst) =
        runs.filterMap List.head? := by
  intro runs
  induction runs with
  | nil => intro n; simp
  | cons run rest ih =>
    intro n
    simp only [List.enumFrom_cons, List.filterMap_cons]
    cases hh : run.head? with
    | none => simpa [hh] using ih (n + 1)
    | some x => simp [hh, ih (n + 1)]

/-- The heads of the runs together with their tails permute to the runs'
concatenation. -/
theorem heads_tails_perm :
    ∀ runs : List (List Row),
      (runs.filterMap List.head? ++ (runs.map List.tail).join).Perm
        runs.join := by
  intro runs
  induction runs with
  | nil => simp
  | cons run rest ih =>
    cases run with
    | nil => simpa using ih
    | cons x xs =>
      simp only [List.filterMap_cons, List.head?_cons, List.map_cons,
        List.tail_cons, List.join_cons, List.cons_append]
      refine List.Perm.cons x ?_
      have h1 : ((rest.filterMap List.head?) ++
          (xs ++ (rest.map List.tail).join)).Perm
          (xs ++ ((rest.filterMap List.head?) ++
            (rest.map List.tail).join)) := by
        rw [← List.append_assoc, ← List.append_assoc]
        exact List.Perm.append_right _ List.perm_append_comm
      exact h1.trans (List.Perm.append_left xs ih)

/-- The initial merge state holds exactly the runs' rows. -/
theorem setup_content_perm (runs : List (List Row)) :
    (mergeContent (setupMerge runs)).Perm runs.join := by
  unfold mergeContent setupMerge
  dsimp only
  rw [show runs.enum = runs.enumFrom 0 from rfl, setup_heap_fst runs 0]
  exact heads_tails_perm runs

/-- Membership in the initial heap: one entry per non-empty run, holding
its head row and its index. -/
theorem mem_setup_heap :
    ∀ (runs : List (List Row)) (n : ℕ) (p : Row × ℕ),
      (p ∈ (runs.enumFrom n).filterMap fun q =>
        q.2.head?.map fun r => (r, q.1)) ↔
        ∃ i run, runs.get? i = some run ∧ run.head? = some p.1 ∧
          p.2 = n + i := by
  intro runs
  induction runs with
  | nil => intro n p; simp
  | cons run rest ih =>
    intro n p
    simp only [List.enumFrom_cons, List.filterMap_cons]
    cases hh : run.head? with
    | none =>
      simp only [Option.map_none']
      rw [ih (n + 1) p]
      constructor
      · rintro ⟨i, run', hget, hhead, hp2⟩
        exact ⟨i + 1, run', by simpa using hget, hhead, by omega⟩
      · rintro ⟨i, run', hget, hhead, hp2⟩
        cases i with
        | zero =>
          exfalso
          simp only [List.get?_cons_zero, Option.some.injEq] at hget
          subst hget
          rw [hh] at hhead
          exact Option.noConfusion hhead
        | succ i' =>
          exact ⟨i', run', by simpa using hget, hhead, by omega⟩
    | some x =>
      simp only [Option.map_some', List.mem_cons]
      rw [ih (n + 1) p]
      constructor
      · rintro (rfl | ⟨i, run', hget, hhead, hp2⟩)
        · exact ⟨0, run, rfl, by simpa using hh, by omega⟩
        · exact ⟨i + 1, run', by simpa using hget, hhead, by omega⟩
      · rintro ⟨i, run', hget, hhead, hp2⟩
        cases i with
        | zero =>
          left
          simp only [List.get?_cons_zero, Option.some.injEq] at hget
          subst hget
          rw [hh] at hhead
          simp only [Option.some.injEq] at hhead
          obtain ⟨p1, p2⟩ := p
          dsimp only at hhead hp2 ⊢
          subst hhead
          simp only [Nat.add_zero] at hp2
          subst hp2
          rfl
        | succ i' =>
          right
          exact ⟨i', run', by simpa using hget, hhead, by omega⟩

/-- A pairwise property survives taking the tail. -/
theorem pairwise_tail {α : Type} {R : α → α → Prop} :
    ∀ {l : List α}, l.Pairwise R → l.tail.Pairwise R
  | [], h => h
  | _ :: _, h => (List.pairwise_cons.1 h).2

/-- `setupMerge` establishes the merge invariant whenever every run is
sorted and every pending row is well-typed. -/
theorem setup_Inv (types : List DataType) (desc : Bool) (ci : ℤ)
    (runs : List (List Row))
    (hsorted : ∀ run ∈ runs, run.Pairwise (keyLe desc ci))
    (hwt : ∀ r ∈ runs.join, wtRow types r = true) :
    MergeInv types desc ci (setupMerge runs) := by
  have hcontent : ∀ y ∈ mergeContent (setupMerge runs),
      wtRow types y = true :=
    fun y hy => hwt y ((setup_content_perm runs).subset hy)
  refine ⟨?_, ?_, ?_, hcontent⟩
  · intro p hp
    obtain ⟨i, run, hget, hhead, hp2⟩ := (mem_setup_heap runs 0 p).1 hp
    refine ⟨run.tail, ?_, ?_⟩
    · show (runs.map List.tail).get? p.2 = some run.tail
      rw [hp2]
      simp only [Nat.zero_add]
      rw [List.get?_map, hget]
      rfl
    · intro x hx
      have hrun : run = p.1 :: run.tail := by
        cases run with
        | nil => exact absurd hhead (by simp)
        | cons a l =>
          simp only [List.head?_cons, Option.some.injEq] at hhead
          rw [hhead]
          rfl
      have hpw := hsorted run (List.mem_iff_get?.2 ⟨i, hget⟩)
      rw [hrun] at hpw
      exact (List.pairwise_cons.1 hpw).1 x hx
  · intro j run' hj
    have hj' : (runs.map List.tail).get? j = some run' := hj
    rw [List.get?_map] at hj'
    cases hget : runs.get? j with
    | none => rw [hget] at hj'; exact absurd hj' (by simp)
    | some run =>
      rw [hget] at hj'
      simp only [Option.map_some', Option.some.injEq] at hj'
      subst hj'
      exact pairwise_tail (hsorted run (List.mem_iff_get?.2 ⟨j, hget⟩))
  · intro j run' hj hne
    have hj' : (runs.map List.tail).get? j = some run' := hj
    rw [List.get?_map] at hj'
    cases hget : runs.get? j with
    | none => rw [hget] at hj'; exact absurd hj' (by simp)
    | some run =>
      rw [hget] at hj'
      simp only [Option.map_some', Option.some.injEq] at hj'
      cases run with
      | nil => exact absurd hj'.symm hne
      | cons x xs =>
        refine ⟨(x, j), ?_, rfl⟩
        show (x, j) ∈ (setupMerge runs).heap
        exact (mem_setup_heap runs 0 (x, j)).2
          ⟨j, x :: xs, hget, rfl, (Nat.zero_add j).symm⟩

/-- Every row of a chunk comes from the input. -/
theorem mem_chunksOf (chunkSize : ℕ) (rows : List Row) (ch : List Row)
    (hch : ch ∈ chunksOf chunkSize rows) : ∀ x ∈ ch, x ∈ rows := by
  intro x hx
  rw [← chunksOf_join chunkSize rows]
  exact List.mem_join.2 ⟨ch, hch, hx⟩

/-- Mapping a function that fixes every element is the identity. -/
theorem map_id_of_pointwise {α : Type} (f : α → α) :
    ∀ l : List α, (∀ x ∈ l, f x = x) → l.map f = l
  | [], _ => rfl
  | a :: l, h => by
    rw [List.map_cons, h a (List.mem_cons_self a l),
      map_id_of_pointwise f l fun x hx => h x (List.mem_cons_of_mem a hx)]

/-- Maps agreeing on every element of a list coincide on it. -/
theorem map_congr_mem {α β : Type} (f g : α → β) :
    ∀ l : List α, (∀ x ∈ l, f x = g x) → l.map f = l.map g
  | [], _ => rfl
  | a :: l, h => by
    rw [List.map_cons, List.map_cons, h a (List.mem_cons_self a l),
      map_congr_mem f g l fun x hx => h x (List.mem_cons_of_mem a hx)]

/-- Joining chunkwise permutations permutes the join. -/
theorem join_map_perm {α : Type} (f : List α → List α) :
    ∀ chunks : List (List α), (∀ ch ∈ chunks, (f ch).Perm ch) →
      ((chunks.map f).join).Perm chunks.join
  | [], _ => List.Perm.refl _
  | ch :: chunks, h => by
    show ((f ch) ++ ((chunks.map f).join)).Perm (ch ++ chunks.join)
    exact (h ch (List.mem_cons_self ch chunks)).append
      (join_map_perm f chunks fun c hc => h c (List.mem_cons_of_mem ch hc))

/-- On well-typed input the run files hold exactly the sorted chunks: the
serialize-and-reparse round trip is the identity there. -/
theorem runsOf_eq_sorted_chunks (types : List DataType) (ci : ℤ)
    (desc : Bool) (chunkSize : ℕ) (rows : List Row)
    (hwt : ∀ r ∈ rows, wtRow types r = true) :
    SortOp.runsOf types ci desc chunkSize rows =
      (chunksOf chunkSize rows).map (sortRows (sortLess desc ci)) := by
  unfold SortOp.runsOf
  refine map_congr_mem _ _ (chunksOf chunkSize rows) ?_
  intro ch hch
  refine map_id_of_pointwise (roundtripRow types) _ ?_
  intro x hx
  exact roundtripRow_id types x
    (hwt x (mem_chunksOf chunkSize rows ch hch x
      ((sortRows_perm (sortLess desc ci) ch).subset hx)))

end Golap

namespace Golap

/-- **C1** (amended): for chunk size ≥ 1 and well-typed input rows, the
external merge sort (`SortOp.prepare` chunking and per-chunk `sort.Slice`,
run files, then the K-way heap merge of `SortOp.Next`) emits a permutation
of the in-memory sort of the whole input by the same comparator, column
and direction, and both sequences are sorted by that key. Without the
well-typedness hypothesis the run-file round trip can rewrite rows, which
refutes the unconditional claim. -/
theorem sortOp_inMemory_equivalence (types : List DataType) (ci : ℤ)
    (desc : Bool) (chunkSize : ℕ) (rows : List Row)
    (hchunk : 1 ≤ chunkSize)
    (hwt : ∀ r ∈ rows, wtRow types r = true) :
    (SortOp.output types ci desc chunkSize rows).Perm
        (sortRows (sortLess desc ci) rows) ∧
      List.Sorted (keyLe desc ci)
        (SortOp.output types ci desc chunkSize rows) ∧
      List.Sorted (keyLe desc ci) (sortRows (sortLess desc ci) rows) := by
  have hrunseq : SortOp.runsOf types ci desc chunkSize rows =
      (chunksOf chunkSize rows).map (sortRows (sortLess desc ci)) :=
    runsOf_eq_sorted_chunks types ci desc chunkSize rows hwt
  have hjoin : (SortOp.runsOf types ci desc chunkSize rows).join.Perm
      rows := by
    rw [hrunseq]
    have h := join_map_perm (sortRows (sortLess desc ci))
      (chunksOf chunkSize rows) (fun ch _ => sortRows_perm _ ch)
    rw [chunksOf_join] at h
    exact h
  have hwtjoin : ∀ r ∈ (SortOp.runsOf types ci desc chunkSize rows).join,
      wtRow types r = true :=
    fun r hr => hwt r (hjoin.subset hr)
  have hsortedruns : ∀ run ∈ SortOp.runsOf types ci desc chunkSize rows,
      run.Pairwise (keyLe desc ci) := by
    intro run hrun
    rw [hrunseq] at hrun
    obtain ⟨ch, hch, rfl⟩ := List.mem_map.1 hrun
    exact sortRows_sorted types desc ci ch
      (fun x hx => hwt x (mem_chunksOf chunkSize rows ch hch x hx))
  have hinv := setup_Inv types desc ci
    (SortOp.runsOf types ci desc chunkSize rows) hsortedruns hwtjoin
  obtain ⟨hperm, hsorted⟩ := mergeOutFuel_spec types desc ci
    (heapSize (setupMerge (SortOp.runsOf types ci desc chunkSize rows)))
    (setupMerge (SortOp.runsOf types ci desc chunkSize rows))
    (Nat.le_refl _) hinv
  refine ⟨?_, ?_, ?_⟩
  · exact (hperm.trans
      (setup_content_perm (SortOp.runsOf types ci desc chunkSize rows))).trans
      (hjoin.trans (sortRows_perm (sortLess desc ci) rows).symm)
  · exact hsorted
  · exact sortRows_sorted types desc ci rows hwt

/-- **C1** witness: a concrete well-typed three-row input with chunk size
2, where the external sort agrees with the in-memory sort. -/
theorem sortOp_inMemory_equivalence_witness :
    (SortOp.output [.int] 0 false 2
        [⟨[.vInt 3]⟩, ⟨[.vInt 1]⟩, ⟨[.vInt 2]⟩]).Perm
        (sortRows (sortLess false 0)
          [⟨[.vInt 3]⟩, ⟨[.vInt 1]⟩, ⟨[.vInt 2]⟩]) ∧
      List.Sorted (keyLe false 0)
        (SortOp.output [.int] 0 false 2
          [⟨[.vInt 3]⟩, ⟨[.vInt 1]⟩, ⟨[.vInt 2]⟩]) ∧
      List.Sorted (keyLe false 0)
        (sortRows (sortLess false 0)
          [⟨[.vInt 3]⟩, ⟨[.vInt 1]⟩, ⟨[.vInt 2]⟩]) :=
  sortOp_inMemory_equivalence [.int] 0 false 2
    [⟨[.vInt 3]⟩, ⟨[.vInt 1]⟩, ⟨[.vInt 2]⟩] (by decide) (by decide)

/-- **C1** counterexample to the unconditional claim: a string value in an
integer-typed column is rewritten to `vInt 0` by the run-file round trip,
so the external sort's output is not a permutation of the in-memory
sort. -/
theorem sortOp_not_inMemory_unconditionally :
    ¬ (SortOp.output [.int] 0 false 1 [⟨[.vStr "a"]⟩]).Perm
        (sortRows (sortLess false 0) [⟨[.vStr "a"]⟩]) := by
  decide

end Golap
